import Mathlib

/-!
Verification development for the multi-file document-processing pipeline
(`src/core/text_processor.py`, `src/core/file_handler.py`,
`src/agents/multi_file_processor.py`, `src/agents/multi_file_qa.py`,
`src/agents/multi_file_summarizer.py`, `src/config/settings.py`).

Text is embedded as `List Char` (Python `str`); the regex character classes
`\w` and `\s` are modelled over ASCII (Python's are Unicode-aware; every
concrete computation below stays in ASCII, where the two agree).
External collaborators (filesystem, OCR service, language model, the
TF-IDF vectorizer and cosine similarity of scikit-learn) are parameters
of the corresponding operations, as the specification treats them.
-/

namespace DocProc

/-! ### Character classes (`re` patterns used by `TextProcessor`) -/

/-- Model of Python regex `\w` (word character), ASCII fragment. -/
def isWordChar (c : Char) : Bool := c.isAlphanum || c = '_'

/-- Model of Python regex `\s` and `str.strip` whitespace, ASCII fragment:
space, tab, newline, carriage return, vertical tab, form feed. -/
def isSpaceChar (c : Char) : Bool :=
  c = ' ' || c = '\t' || c = '\n' || c = '\r' || c = Char.ofNat 11 || c = Char.ofNat 12

/-- The punctuation kept by `clean_text`'s allow-set
`[^\w\s.,!?;:()\-\'""]` (the two quote characters in the source are both
the ASCII double quote). `Char.ofNat 39` is the apostrophe,
`Char.ofNat 34` the double quote. -/
def allowedPunct : List Char :=
  ['.', ',', '!', '?', ';', ':', '(', ')', '-', Char.ofNat 39, Char.ofNat 34]

/-- A character the allow-set of `clean_text` keeps. -/
def isAllowedChar (c : Char) : Bool :=
  isWordChar c || isSpaceChar c || allowedPunct.contains c

/-! ### `TextProcessor.clean_text` (`src/core/text_processor.py` lines 18-32)
and `_fix_common_ocr_errors` (lines 52-64) -/

/-- `re.sub(r'\s+', ' ', text)`: every maximal run of whitespace becomes a
single space. -/
def collapseWs : List Char → List Char
  | [] => []
  | [c] => if isSpaceChar c then [' '] else [c]
  | a :: b :: rest =>
    if isSpaceChar a then
      if isSpaceChar b then collapseWs (b :: rest)
      else ' ' :: collapseWs (b :: rest)
    else a :: collapseWs (b :: rest)

/-- `re.sub(r'[^\w\s.,!?;:()\-\'""]', ' ', text)`: characters outside the
allow-set become a space. -/
def replaceDisallowed (l : List Char) : List Char :=
  l.map fun c => if isAllowedChar c then c else ' '

/-- Left context of a position satisfies `\b` before a word character:
start of text or a non-word character. -/
def lbOf : Option Char → Bool
  | none => true
  | some p => !isWordChar p

/-- Right context of a position satisfies `\b` after a word character:
end of text or a non-word character. -/
def rbOf : List Char → Bool
  | [] => true
  | n :: _ => !isWordChar n

/-- `re.sub(r'\b' + d + r'\b', r, text)` for a single word character `d`:
every occurrence of `d` with word boundaries on both sides (evaluated on the
original text, as `re.sub` does) is replaced by `r`. `prev` is the original
character preceding the current position. -/
def fixStandalone (d r : Char) : Option Char → List Char → List Char
  | _, [] => []
  | prev, c :: rest =>
    (if c = d && lbOf prev && rbOf rest then r else c) :: fixStandalone d r (some c) rest

/-- `TextProcessor._fix_common_ocr_errors`: `\b0\b → O`, then `\b1\b → I`,
then `\s+ → ' '` (the dict iterates in insertion order). -/
def fixCommonOcrErrors (l : List Char) : List Char :=
  collapseWs (fixStandalone '1' 'I' none (fixStandalone '0' 'O' none l))

/-- Remove trailing whitespace (right half of Python `str.strip`). -/
def dropTrailingWs : List Char → List Char
  | [] => []
  | c :: rest =>
    match dropTrailingWs rest with
    | [] => if isSpaceChar c then [] else [c]
    | r => c :: r

/-- Python `str.strip()`: drop leading and trailing whitespace. -/
def stripChars (l : List Char) : List Char := dropTrailingWs (l.dropWhile isSpaceChar)

/-- `TextProcessor.clean_text` on the character list: collapse whitespace,
replace disallowed characters by spaces, apply the OCR fixes, strip.
Empty input returns empty (`if not text: return ""`). -/
def cleanTextL (l : List Char) : List Char :=
  if l.isEmpty then []
  else stripChars (fixCommonOcrErrors (replaceDisallowed (collapseWs l)))

/-- `TextProcessor.clean_text`. -/
def TextProcessor.clean_text (s : String) : String := String.mk (cleanTextL s.data)

/-! ### The text splitter (`TextProcessor.create_chunks`, lines 34-50)

`create_chunks` delegates to langchain's `RecursiveCharacterTextSplitter`
constructed with `chunk_size`, `chunk_overlap`, `length_function=len`,
`separators=["\n\n", "\n", " ", ""]` and the library defaults
`keep_separator=True` and `strip_whitespace=True`.  The library's
`_split_text` / `_merge_splits` algorithm is embedded below. -/

/-- Fuel-based scan for `splitPieces`: each step consumes at least one
character of the text, so any fuel at least the text length gives the
untruncated result.  `acc` holds the reversed current piece. -/
def splitPiecesFuel (s0 : Char) (srest : List Char) :
    Nat → List Char → List Char → List (List Char)
  | _, [], acc => [acc.reverse]
  | 0, _ :: _, acc => [acc.reverse]
  | fuel + 1, c :: rest, acc =>
    if (s0 :: srest).isPrefixOf (c :: rest) then
      acc.reverse :: splitPiecesFuel s0 srest fuel (rest.drop srest.length) []
    else
      splitPiecesFuel s0 srest fuel rest (c :: acc)

/-- Python `re.split(re.escape(sep), text)` for a non-empty literal
separator `s0 :: srest`: pieces of `text` between non-overlapping
occurrences of the separator, scanned left to right. -/
def splitPieces (s0 : Char) (srest : List Char) (text : List Char) (acc : List Char) :
    List (List Char) :=
  splitPiecesFuel s0 srest text.length text acc

/-- `_split_text_with_regex(text, separator, keep_separator=True)`: split on
the separator, reattach the separator to the front of each following piece
(the "start" mode that `keep_separator=True` selects), drop empty pieces.
For the empty separator the text becomes its list of characters. -/
def splitWithSepKeep (sep : List Char) (text : List Char) : List (List Char) :=
  match sep with
  | [] => text.map (fun c => [c])
  | s0 :: srest =>
    match splitPieces s0 srest text [] with
    | [] => []
    | t0 :: ts => (t0 :: ts.map (fun t => sep ++ t)).filter (fun t => !t.isEmpty)

/-- `re.search(re.escape(sep), text)` for a literal separator: does `sep`
occur in `text` as a contiguous subsequence. -/
def containsSeq (sep : List Char) : List Char → Bool
  | [] => sep.isEmpty
  | c :: rest => sep.isPrefixOf (c :: rest) || containsSeq sep rest

/-- The separator-selection loop of `_split_text`: the first separator that
is empty (taken as the hard cut, with no further separators) or occurs in
the text (with the remaining separators for recursion). -/
def pickSeparator : List (List Char) → List Char → List Char × List (List Char)
  | [], _ => ([], [])
  | s :: rest, text =>
    if s.isEmpty then ([], [])
    else if containsSeq s text then (s, rest)
    else pickSeparator rest text

/-- `_join_docs(docs, separator)` with `strip_whitespace=True`: join, strip,
and drop the result when it is empty. -/
def joinDocs (sep : List Char) (docs : List (List Char)) : Option (List Char) :=
  let t := stripChars (List.intercalate sep docs)
  if t.isEmpty then none else some t

/-- The inner `while` loop of `_merge_splits` that pops leading documents
until the overlap bound and size bound are met.  `total` is the running
length; `dLen` the length of the split about to be appended.  (With an
empty `current_doc` the Python condition is false by the loop invariant;
the empty case returns unchanged.) -/
def mergePop (cs ov sepLen dLen : Nat) : List (List Char) → Int → List (List Char) × Int
  | [], total => ([], total)
  | d0 :: cur, total =>
    if total > (ov : Int) ∨
        (total + (dLen : Int) + (if cur.length > 0 then (sepLen : Int) else 0) > (cs : Int)
          ∧ total > 0) then
      mergePop cs ov sepLen dLen cur
        (total - ((d0.length : Int) + (if cur.length > 0 then (sepLen : Int) else 0)))
    else (d0 :: cur, total)

/-- The main loop of `_merge_splits`: greedily fill `cur` with splits; when
adding the next split would exceed `chunk_size`, emit the joined current
document and pop from its front (`mergePop`) before appending. -/
def mergeLoop (cs ov : Nat) (sep : List Char) :
    List (List Char) → List (List Char) → List (List Char) → Int → List (List Char)
  | [], docs, cur, _ => docs ++ (joinDocs sep cur).toList
  | d :: rest, docs, cur, total =>
    if total + (d.length : Int) + (if cur.length > 0 then (sep.length : Int) else 0) >
        (cs : Int) ∧ cur.length > 0 then
      let docs2 := docs ++ (joinDocs sep cur).toList
      let p := mergePop cs ov sep.length d.length cur total
      mergeLoop cs ov sep rest docs2 (p.1 ++ [d])
        (p.2 + (d.length : Int) + (if p.1.length > 0 then (sep.length : Int) else 0))
    else
      mergeLoop cs ov sep rest docs (cur ++ [d])
        (total + (d.length : Int) + (if cur.length > 0 then (sep.length : Int) else 0))

/-- `_merge_splits(splits, separator)`. -/
def mergeSplits (cs ov : Nat) (sep : List Char) (splits : List (List Char)) :
    List (List Char) :=
  mergeLoop cs ov sep splits [] [] 0

/-- The split-accumulation loop of `_split_text`: splits shorter than
`chunk_size` are collected and merged; longer ones flush the collection and
are handled by `handleBig` (recursion or raw append). -/
def goodLoop (cs : Nat) (mergeGood : List (List Char) → List (List Char))
    (handleBig : List Char → List (List Char)) :
    List (List Char) → List (List Char) → List (List Char)
  | [], good => if good.length > 0 then mergeGood good else []
  | s :: rest, good =>
    if s.length < cs then goodLoop cs mergeGood handleBig rest (good ++ [s])
    else
      (if good.length > 0 then mergeGood good else []) ++ handleBig s ++
        goodLoop cs mergeGood handleBig rest []

/-- `RecursiveCharacterTextSplitter._split_text` with fuel bounding the
recursion depth over the separator list (each recursive call uses a strict
suffix of the separators, so `separators.length + 1` fuel always suffices;
with `keep_separator=True` the merge separator is the empty string). -/
def splitTextFuel (cs ov : Nat) : Nat → List (List Char) → List Char → List (List Char)
  | 0, _, text => [text]
  | fuel + 1, seps, text =>
    let p := pickSeparator seps text
    goodLoop cs (mergeSplits cs ov [])
      (fun s => if p.2.isEmpty then [s] else splitTextFuel cs ov fuel p.2 s)
      (splitWithSepKeep p.1 text) []

/-- The splitter's separator list `["\n\n", "\n", " ", ""]`. -/
def separatorsList : List (List Char) := [['\n', '\n'], ['\n'], [' '], []]

/-- `RecursiveCharacterTextSplitter.split_text` as configured by
`TextProcessor.__init__`. -/
def splitTextL (cs ov : Nat) (text : List Char) : List (List Char) :=
  splitTextFuel cs ov (separatorsList.length + 1) separatorsList text

/-! ### Chunk metadata (`create_chunks`, `get_document_metadata`) -/

/-- Python `str.split()` with no argument: whitespace-delimited tokens,
empties dropped. `acc` is the reversed current token. -/
def pySplitWsAux : List Char → List Char → List (List Char)
  | [], acc => if acc.isEmpty then [] else [acc.reverse]
  | c :: rest, acc =>
    if isSpaceChar c then
      if acc.isEmpty then pySplitWsAux rest [] else acc.reverse :: pySplitWsAux rest []
    else pySplitWsAux rest (c :: acc)

/-- Python `str.split()` with no argument. -/
def pySplitWs (l : List Char) : List (List Char) := pySplitWsAux l []

/-- One chunk record produced by `create_chunks`. -/
structure ChunkMeta where
  content : String
  chunk_id : Nat
  word_count : Nat
  char_count : Nat
deriving DecidableEq

/-- `TextProcessor.create_chunks(text)`: split, then wrap each chunk with
its index, word count and character count; empty text gives no chunks. -/
def TextProcessor.create_chunks (cs ov : Nat) (text : String) : List ChunkMeta :=
  if text = "" then []
  else
    (splitTextL cs ov text.data).enum.map fun p =>
      { content := String.mk p.2, chunk_id := p.1,
        word_count := (pySplitWs p.2).length, char_count := p.2.length }

/-- A sentence-terminating punctuation character (`[.!?]`). -/
def isSentencePunct (c : Char) : Bool := c = '.' || c = '!' || c = '?'

/-- Number of maximal runs of characters satisfying `p`
(`len(re.findall(r'[.!?]+', text))` for `p = isSentencePunct`).  `inRun`
records whether the previous character was in a run. -/
def countRuns (p : Char → Bool) : List Char → Bool → Nat
  | [], _ => 0
  | c :: rest, inRun =>
    if p c then (if inRun then 0 else 1) + countRuns p rest true
    else countRuns p rest false

/-- The statistics record of `get_document_metadata`. -/
structure DocumentMetadata where
  word_count : Nat
  character_count : Nat
  sentence_count : Nat
  paragraph_count : Nat
  estimated_reading_time : Nat
deriving DecidableEq

/-- `TextProcessor.get_document_metadata(text)`; `none` models the empty
dict returned for empty text. -/
def TextProcessor.get_document_metadata (text : String) : Option DocumentMetadata :=
  if text = "" then none
  else
    let l := text.data
    let words := (pySplitWs l).length
    some
      { word_count := words
        character_count := l.length
        sentence_count := countRuns isSentencePunct l false
        paragraph_count :=
          if containsSeq ['\n', '\n'] l then (splitPieces '\n' ['\n'] l []).length else 1
        estimated_reading_time := max 1 (words / 200) }

/-- Python `str.strip()` on strings. -/
def stripString (s : String) : String := String.mk (stripChars s.data)

/-! ### Configuration (`src/config/settings.py`) -/

namespace Config

def MAX_FILE_SIZE : Nat := 50 * 1024 * 1024

def ALLOWED_EXTENSIONS : List String := [".pdf", ".png", ".jpg", ".jpeg", ".tiff", ".docx"]

def MAX_CHUNK_SIZE : Nat := 1000

def CHUNK_OVERLAP : Nat := 200

end Config

/-! ### Data model (`src/agents/multi_file_state.py`)

The fields `messages`, `topic_analysis`, `temperature` and `max_files` of
`MultiFileDocumentState` are never read or written by the operations
modelled here and are omitted. -/

inductive ProcessingStatus where
  | IDLE | UPLOADING | UPLOADED | PROCESSING | OCR_COMPLETE | SUMMARIZED | READY | ERROR
deriving DecidableEq

structure FileInfo where
  file_id : String
  file_name : String
  file_path : String
  file_type : String
  file_size : Nat
  upload_timestamp : Nat
  processing_status : ProcessingStatus
  error_message : Option String := none
  raw_text : Option String := none
  processed_text : Option String := none
  text_quality_score : Option ℚ := none
  document_chunks : List String := []
  chunk_metadata : List ChunkMeta := []
  document_metadata : Option DocumentMetadata := none
  individual_summary : Option String := none
deriving DecidableEq

/-- A merged chunk with file provenance (`combined_chunks` entries built by
`process_all_files_ocr`); `metadata = none` models the empty dict used when
the index is out of range. -/
structure CombinedChunk where
  content : String
  file_id : String
  file_name : String
  file_type : String
  chunk_index : Nat
  metadata : Option ChunkMeta
deriving DecidableEq

structure ChatMessage where
  role : String
  content : String
deriving DecidableEq

/-- `MultiFileDocumentState`.  Python dicts keyed by strings are embedded
as insertion-ordered association lists. -/
structure MultiFileDocumentState where
  uploaded_file_paths : List (String × String)
  overall_status : ProcessingStatus
  current_step : String
  processing_progress : List (String × Int)
  error_message : Option String
  files : List (String × FileInfo)
  file_upload_order : List String
  total_files : Nat
  files_completed : Nat
  combined_text : Option String
  combined_chunks : List CombinedChunk
  combined_summary : Option String
  suggested_questions : List String
  document_relationships : List String
  current_query : Option String
  response : Option String
  chat_history : List ChatMessage
  relevant_chunks : List (CombinedChunk × ℚ)
  max_chunk_size : Nat
  overlap_size : Nat
deriving DecidableEq

/-- Python dict update `m[k] = v`: overwrite in place, append a fresh key. -/
def setAssoc (k : String) (v : Int) : List (String × Int) → List (String × Int)
  | [] => [(k, v)]
  | p :: rest => if p.1 = k then (k, v) :: rest else p :: setAssoc k v rest

/-- Python dict lookup `m.get(k)`. -/
def getAssoc (m : List (String × Int)) (k : String) : Option Int :=
  (m.find? (fun p => p.1 == k)).map (·.2)

/-- Python dict lookup `files[fid]` as an option. -/
def lookupFile (files : List (String × FileInfo)) (fid : String) : Option FileInfo :=
  (files.find? (fun p => p.1 == fid)).map (·.2)

/-! ### File handler (`src/core/file_handler.py`) -/

/-- `pathlib.PurePath.suffix` of a path's final component: from the last
dot, provided that dot is neither the first nor the last character of the
name. -/
def pySuffix (name : List Char) : List Char :=
  match name.reverse.findIdx? (· = '.') with
  | none => []
  | some k =>
    let i := name.length - 1 - k
    if 0 < i ∧ i < name.length - 1 then name.drop i else []

/-- `Path(file_path).suffix` (POSIX: final component after the last
slash). -/
def pathSuffix (file_path : String) : String :=
  String.mk (pySuffix ((file_path.data.splitOn '/').getLastD []))

/-- Lower-cased suffix, as compared against the allow-set. -/
def pathSuffixLower (file_path : String) : String :=
  String.mk ((pathSuffix file_path).data.map Char.toLower)

/-- `FileHandler.validate_file(file_path, max_size, allowed_extensions)`.
The filesystem is the parameter `fsSize` (`none` = the path does not
resolve, `some sz` = a file of `sz` bytes).  The Python size message
interpolates the size in MB with float formatting; the numeric text is not
modelled. -/
def FileHandler.validate_file (fsSize : String → Option Nat) (file_path : String)
    (max_size : Nat) (allowed_extensions : List String) : Bool × String :=
  match fsSize file_path with
  | none => (false, "File does not exist")
  | some sz =>
    if sz > max_size then (false, "File size exceeds maximum allowed size")
    else if !(allowed_extensions.contains (pathSuffixLower file_path)) then
      (false, "File type " ++ pathSuffix file_path ++ " not supported")
    else (true, "")

/-! ### `upload_multiple_files` (`src/agents/multi_file_processor.py` lines 14-98) -/

/-- External effects of the upload node: the filesystem (`fsSize`),
`FileHandler.save_uploaded_file` (`save`, which may raise), the `uuid4`
supply (`uuid i` is the identifier generated for the i-th submitted file)
and `time.time()` (`now`). -/
structure UploadEnv where
  fsSize : String → Option Nat
  save : String → String → Except String (String × String × Nat)
  uuid : Nat → String
  now : Nat

/-- The per-file loop body of `upload_multiple_files`: `none` when the file
is skipped (validation failed, or `save_uploaded_file` raised), otherwise
the admitted `FileInfo` (status `UPLOADED`). -/
def admitFile (env : UploadEnv) (i : Nat) (file_path file_name : String) :
    Option (String × FileInfo) :=
  if (FileHandler.validate_file env.fsSize file_path
        Config.MAX_FILE_SIZE Config.ALLOWED_EXTENSIONS).1 then
    match env.save file_path file_name with
    | .error _ => none
    | .ok (saved_path, file_type, file_size) =>
      some (env.uuid i,
        { file_id := env.uuid i, file_name := file_name, file_path := saved_path,
          file_type := file_type, file_size := file_size, upload_timestamp := env.now,
          processing_status := ProcessingStatus.UPLOADED })
  else none

/-- The admitted set produced by the upload loop: each submitted file in
order, skipping those that fail validation or whose save raises. -/
def admittedList (env : UploadEnv) (uploads : List (String × String)) :
    List (String × FileInfo) :=
  uploads.enum.filterMap fun p => admitFile env p.1 p.2.1 p.2.2

/-- LangGraph node `upload_multiple_files`. -/
def upload_multiple_files (env : UploadEnv) (st : MultiFileDocumentState) :
    MultiFileDocumentState :=
  if st.overall_status = ProcessingStatus.SUMMARIZED then st
  else
    let st1 := { st with overall_status := ProcessingStatus.UPLOADING,
                         current_step := "upload" }
    match st.uploaded_file_paths with
    | [] =>
      { st1 with overall_status := ProcessingStatus.ERROR,
                 error_message := some "File upload failed: No files provided for upload" }
    | _ :: _ =>
      let uploads := st.uploaded_file_paths
      let st2 := { st1 with
        total_files := uploads.length
        files_completed := 0
        files := []
        file_upload_order := [] }
      let admitted := admittedList env uploads
      if admitted.isEmpty then
        { st2 with overall_status := ProcessingStatus.ERROR,
                   error_message :=
                     some "File upload failed: No files were successfully uploaded" }
      else
        { st2 with files := admitted, file_upload_order := admitted.map (·.1),
                   overall_status := ProcessingStatus.UPLOADED,
                   processing_progress := [("overall", 20)] }

/-! ### `process_all_files_ocr` (`src/agents/multi_file_processor.py` lines 100-228) -/

/-- The external Text Extraction Service: `OCREngine.extract_text(path,
type)` returns raw text with a confidence score, or raises. -/
structure OcrEnv where
  extract : String → String → Except String (String × ℚ)

/-- `process_single_file` inside `process_all_files_ocr`: extract, reject
blank text, clean, chunk, and fill the record; on failure the record gets
status `ERROR` with the captured message and its other fields are left
as they were. -/
def process_single_file (env : OcrEnv) (cs ov : Nat) (f : FileInfo) : FileInfo :=
  match env.extract f.file_path f.file_type with
  | .error e => { f with processing_status := ProcessingStatus.ERROR,
                         error_message := some e }
  | .ok (raw_text, confidence) =>
    if stripString raw_text = "" then
      { f with processing_status := ProcessingStatus.ERROR,
               error_message := some "No text could be extracted" }
    else
      let processed_text := TextProcessor.clean_text raw_text
      let document_chunks := TextProcessor.create_chunks cs ov processed_text
      { f with raw_text := some raw_text,
               processed_text := some processed_text,
               text_quality_score := some confidence,
               document_chunks := document_chunks.map (·.content),
               chunk_metadata := document_chunks,
               document_metadata := TextProcessor.get_document_metadata processed_text,
               processing_status := ProcessingStatus.OCR_COMPLETE }

/-- Whether `process_single_file` fails for this record under `env`:
extraction raised, or the raw text is blank after stripping. -/
def fileFails (env : OcrEnv) (f : FileInfo) : Prop :=
  match env.extract f.file_path f.file_type with
  | .error _ => True
  | .ok (raw_text, _) => stripString raw_text = ""

instance (env : OcrEnv) (f : FileInfo) : Decidable (fileFails env f) := by
  unfold fileFails
  rcases env.extract f.file_path f.file_type with e | ⟨raw, c⟩
  · exact inferInstanceAs (Decidable True)
  · exact inferInstanceAs (Decidable (_ = _))

/-- The header line prepended to each file's text in `combined_text`. -/
def fileHeader (f : FileInfo) : String :=
  "=== " ++ f.file_name ++ " ===\n" ++ (f.processed_text.getD "")

/-- The provenance-tagged chunks contributed by one successful file. -/
def taggedChunks (f : FileInfo) : List CombinedChunk :=
  f.document_chunks.enum.map fun p =>
    { content := p.2, file_id := f.file_id, file_name := f.file_name,
      file_type := f.file_type, chunk_index := p.1,
      metadata := f.chunk_metadata.get? p.1 }

/-- LangGraph node `process_all_files_ocr`.  The per-iteration progress
value `int((completed/total)*60) + 20` is computed in Python with float
arithmetic; it is modelled with exact natural division (the two agree at
the final iteration, the only value any later code observes, where the
ratio is exactly 1). -/
def process_all_files_ocr (env : OcrEnv) (st : MultiFileDocumentState) :
    MultiFileDocumentState :=
  let st : MultiFileDocumentState := { st with
    overall_status := ProcessingStatus.PROCESSING
    current_step := "ocr" }
  if st.files.isEmpty then
    { st with
      overall_status := ProcessingStatus.ERROR
      error_message := some "OCR processing failed: No files to process" }
  else
    let st : MultiFileDocumentState := { st with max_chunk_size := 2000, overlap_size := 250 }
    let total : Nat := st.files.length
    let newFiles := st.files.map fun p => (p.1, process_single_file env 2000 250 p.2)
    let progress := newFiles.enum.foldl
      (fun prog q =>
        setAssoc q.2.1
          (if q.2.2.processing_status = ProcessingStatus.OCR_COMPLETE then 100 else 0)
          (setAssoc "overall" (Int.ofNat ((q.1 + 1) * 60 / total + 20)) prog))
      st.processing_progress
    let successful := newFiles.filter
      (fun p => decide (p.2.processing_status = ProcessingStatus.OCR_COMPLETE))
    if successful.length ≠ total then
      let failed := (newFiles.filter
        (fun p => !decide (p.2.processing_status = ProcessingStatus.OCR_COMPLETE))).map
          (·.2.file_name)
      { st with
        files := newFiles
        processing_progress := progress
        overall_status := ProcessingStatus.ERROR
        error_message := some
          ("OCR processing failed: All files must be successfully processed. " ++
           "Failed files: " ++ String.intercalate ", " failed) }
    else
      let combined_texts := successful.filterMap fun p =>
        match p.2.processed_text with
        | none => none
        | some t => if t = "" then none else some (fileHeader p.2)
      let combined_chunks := successful.flatMap fun p => taggedChunks p.2
      { st with
        files := newFiles
        processing_progress := setAssoc "overall" 80 progress
        combined_text := some (String.intercalate "\n\n" combined_texts)
        combined_chunks := combined_chunks
        files_completed := successful.length
        overall_status := ProcessingStatus.OCR_COMPLETE }

/-! ### Retrieval (`src/agents/multi_file_qa.py` lines 85-116)

The TF-IDF vectorization and cosine similarity are scikit-learn
collaborators; an operation on a built index is parameterized by the
similarity vector they produce for the query (one rational per chunk of
the corpus, cosine similarity being a 0-1 score).  `numpy.argsort` is
modelled as a stable ascending sort of the indices (numpy's default sort
is insertion sort on the small arrays involved here, which is stable);
`list.sort` is Python's stable sort. -/

/-- The ascending comparison used to model `np.argsort(sims)`: by value,
with index order (stability) breaking ties. -/
def argsortLe (sims : List ℚ) (i j : Nat) : Prop :=
  sims.getD i 0 < sims.getD j 0 ∨ (sims.getD i 0 = sims.getD j 0 ∧ i ≤ j)

instance (sims : List ℚ) : DecidableRel (argsortLe sims) := by
  intro i j
  unfold argsortLe
  infer_instance

/-- Stable ascending `np.argsort(sims)`. -/
def argsortAsc (sims : List ℚ) : List Nat :=
  List.insertionSort (argsortLe sims) (List.range sims.length)

/-- The descending stable comparison of
`relevant_chunks.sort(key=similarity_score, reverse=True)`. -/
def byScoreDesc {α : Type} (a b : α × ℚ) : Prop := b.2 ≤ a.2

instance {α : Type} : DecidableRel (byScoreDesc (α := α)) := by
  intro a b
  unfold byScoreDesc
  infer_instance

/-- The out-of-range lookup placeholder.  A similarity vector produced by
the vectorizer has exactly one entry per corpus chunk, so this value is
never reached on inputs the code encounters (Python would raise
`IndexError` on a shorter corpus). -/
def defaultChunk : CombinedChunk :=
  { content := "", file_id := "", file_name := "", file_type := "",
    chunk_index := 0, metadata := none }

/-- The fixed minimum-relevance threshold 0.1 of
`retrieve_relevant_chunks` (`mkRat` keeps the constant kernel-computable;
`simThreshold_eq` identifies it with `1 / 10`). -/
def simThreshold : ℚ := mkRat 1 10

/-- The index-level content of `retrieve_relevant_chunks` on a built index:
take the query's similarity per chunk, keep the `top_k` highest-scoring
indices (`argsort` reversed and truncated), filter by the strict 0.1
threshold, and re-sort by descending score. -/
def retrieveIdx (sims : List ℚ) (top_k : Nat) : List (Nat × ℚ) :=
  let top_indices := (argsortAsc sims).reverse.take top_k
  let relevant := top_indices.filterMap fun i =>
    if sims.getD i 0 > simThreshold then some (i, sims.getD i 0) else none
  List.insertionSort byScoreDesc relevant

/-- `MultiFileQAAgent.retrieve_relevant_chunks(query, top_k)`.  `chunks` is
`chunks_with_metadata` (the empty list models both an unprepared and an
empty corpus), `vecs` is `none` when `chunk_vectors is None` (index not
built) and otherwise carries the query's similarity vector.  The Python
code sorts the copied chunk dicts by their attached score; since the
comparator reads only the score, that equals mapping the sorted
index-score pairs to their chunks. -/
def MultiFileQAAgent.retrieve_relevant_chunks (chunks : List CombinedChunk)
    (vecs : Option (List ℚ)) (top_k : Nat) : List (CombinedChunk × ℚ) :=
  if chunks.isEmpty then []
  else
    match vecs with
    | none => []
    | some sims =>
      (retrieveIdx sims top_k).map fun p => (chunks.getD p.1 defaultChunk, p.2)

/-! ### Summarizer (`src/agents/multi_file_summarizer.py`)

The Language Model collaborator is `llm : String → Except String String`
(`invoke` returning response text, or raising).  The literal prompt
templates only flow into `llm`; their text is embedded with the
triple-quoted indentation condensed. -/

/-- The external Language Model service. -/
structure LlmEnv where
  llm : String → Except String String

/-- Python `str.upper()` (ASCII). -/
def upperStr (s : String) : String := String.mk (s.data.map Char.toUpper)

/-- Python slicing `s[:n]`. -/
def pyTake (n : Nat) (s : String) : String := String.mk (s.data.take n)

/-- The `multi_doc_summary_prompt` template applied to its inputs. -/
def summaryPromptText (num_documents : Nat) (documents_info combined_text_sample : String) :
    String :=
  "You are analyzing a collection of " ++ toString num_documents ++
  " documents. Provide a comprehensive analysis.\nDocument Collection Overview:\n" ++
  documents_info ++ "\nCombined Content Sample (first 4000 characters):\n" ++
  combined_text_sample ++
  "\nPlease provide: 1. Collection Summary 2. Individual Document Insights " ++
  "3. Common Themes 4. Document Relationships 5. Key Findings"

/-- The per-file line of `documents_info` in `generate_combined_summary`
(word and paragraph counts fall back to the literal `Unknown` when the
metadata dict is empty). -/
def summaryDocLine (f : FileInfo) : String :=
  "- **" ++ f.file_name ++ "** (" ++ upperStr f.file_type ++ "): " ++
  (match f.document_metadata with
   | some m => toString m.word_count
   | none => "Unknown") ++ " words, " ++
  (match f.document_metadata with
   | some m => toString m.paragraph_count
   | none => "Unknown") ++ " paragraphs"

/-- `MultiFileDocumentSummarizer.generate_combined_summary`: all failures
(the missing-text check and a raising model call) are caught inside and
become an error STRING result, not an exception. -/
def MultiFileDocumentSummarizer.generate_combined_summary (env : LlmEnv)
    (st : MultiFileDocumentState) : String :=
  let combined_text := st.combined_text.getD ""
  if combined_text = "" then
    "Error generating summary: No combined text available for summarization"
  else
    let docs_info := (st.file_upload_order.filterMap (lookupFile st.files)).filterMap
      fun f =>
        if f.processing_status = ProcessingStatus.OCR_COMPLETE then some (summaryDocLine f)
        else none
    let sample := if combined_text.length > 4000 then pyTake 4000 combined_text
                  else combined_text
    match env.llm (summaryPromptText docs_info.length
        (String.intercalate "\n" docs_info) sample) with
    | .ok r => stripString r
    | .error e => "Error generating summary: " ++ e

/-- The `multi_doc_questions_prompt` template applied to its inputs. -/
def questionsPromptText (num_documents : Nat) (combined_summary documents_info : String) :
    String :=
  "Based on this collection of " ++ toString num_documents ++
  " documents, generate 8 diverse questions that users might ask.\nCollection Summary:\n" ++
  combined_summary ++ "\nDocuments in Collection:\n" ++ documents_info ++
  "\nProvide exactly 8 questions in the numbered format."

/-- The hard-coded question list returned when question generation
raises. -/
def fallbackQuestions : List String :=
  ["What are the main topics covered across all documents?",
   "How do these documents relate to each other?",
   "What are the key findings from this document collection?",
   "Which document provides the most detailed information on [topic]?",
   "Are there any contradictions between the documents?",
   "What common themes appear in multiple documents?",
   "What unique insights does each document provide?",
   "What conclusions can be drawn from this collection?"]

/-- `line.split('.', 1)[-1]`: everything after the first occurrence of the
separator (callers guard on the separator being present). -/
def afterFirstSep (sep : Char) : List Char → List Char
  | [] => []
  | c :: rest => if c = sep then rest else afterFirstSep sep rest

/-- The characters stripped by `line.lstrip('- •1234567890')`. -/
def lstripQuestionChars : List Char :=
  ['-', ' ', Char.ofNat 8226, '1', '2', '3', '4', '5', '6', '7', '8', '9', '0']

/-- One iteration of `_parse_questions`: `none` when the line is skipped. -/
def parseQuestionLine (line : List Char) : Option String :=
  let l := stripChars line
  match l with
  | [] => none
  | c :: _ =>
    if c.isDigit || c = '-' || c = Char.ofNat 8226 then
      let q := if l.contains '.' then stripChars (afterFirstSep '.' l)
               else stripChars (l.dropWhile (fun ch => lstripQuestionChars.contains ch))
      if !q.isEmpty && (q.contains '?' || q.length > 10) then
        some (String.mk (if q.getLast? = some '?' then q else q ++ ['?']))
      else none
    else none

/-- `MultiFileDocumentSummarizer._parse_questions`. -/
def MultiFileDocumentSummarizer.parse_questions (s : String) : List String :=
  ((((stripString s).data.splitOn '\n').filterMap parseQuestionLine)).take 8

/-- The per-file line of `documents_info` in
`generate_collection_questions`. -/
def questionsDocLine (f : FileInfo) : String :=
  "- " ++ f.file_name ++ " (" ++ upperStr f.file_type ++ ")"

/-- `MultiFileDocumentSummarizer.generate_collection_questions`: a raising
model call is caught inside and yields the fallback list. -/
def MultiFileDocumentSummarizer.generate_collection_questions (env : LlmEnv)
    (combined_summary : String) (st : MultiFileDocumentState) : List String :=
  let docs_info := (st.file_upload_order.filterMap (lookupFile st.files)).filterMap
    fun f =>
      if f.processing_status = ProcessingStatus.OCR_COMPLETE then some (questionsDocLine f)
      else none
  match env.llm (questionsPromptText docs_info.length combined_summary
      (String.intercalate "\n" docs_info)) with
  | .ok r => MultiFileDocumentSummarizer.parse_questions r
  | .error _ => fallbackQuestions

/-- LangGraph node `generate_multi_document_summary`
(`src/agents/multi_file_summarizer.py` lines 173-214). -/
def generate_multi_document_summary (env : LlmEnv) (st : MultiFileDocumentState) :
    MultiFileDocumentState :=
  let st : MultiFileDocumentState := { st with current_step := "summarize" }
  if st.overall_status ≠ ProcessingStatus.OCR_COMPLETE then
    { st with
      overall_status := ProcessingStatus.ERROR
      error_message :=
        some "Summarization failed: OCR processing must be complete before summarization" }
  else
    let combined_summary := MultiFileDocumentSummarizer.generate_combined_summary env st
    let questions :=
      MultiFileDocumentSummarizer.generate_collection_questions env combined_summary st
    { st with
      combined_summary := some combined_summary
      suggested_questions := questions
      document_relationships := []
      overall_status := ProcessingStatus.SUMMARIZED
      processing_progress := setAssoc "overall" 100 st.processing_progress }

/-! ### QA node (`src/agents/multi_file_qa.py` lines 118-218) -/

/-- External collaborators of the QA agent: the Language Model, the
vectorizer-plus-cosine similarity (`sim question` is the score of each
corpus chunk for the question) and whether `fit_transform` succeeds
(`fitOk = false` models a raising fit, which leaves the index unbuilt). -/
structure QAEnv where
  llm : String → Except String String
  sim : String → List ℚ
  fitOk : Bool

/-- Whether `prepare_multi_file_index` leaves a usable index: there are
combined chunks and the vectorizer fit succeeded. -/
def indexBuilt (env : QAEnv) (st : MultiFileDocumentState) : Bool :=
  !st.combined_chunks.isEmpty && env.fitOk

/-- The chunk vectors seen by a retrieval for `question` after the lazy
`prepare_multi_file_index`. -/
def qaVectors (env : QAEnv) (st : MultiFileDocumentState) (question : String) :
    Option (List ℚ) :=
  if indexBuilt env st then some (env.sim question) else none

/-- The `multi_doc_qa_prompt` template applied to its inputs.  The template
declares `relevant_chunks` as an input variable but its text never uses it,
so the retrieved context (`_relevant_chunks` here) does not reach the
model; `combined_text` is `str`-formatted, so a missing value renders as
the literal `None`. -/
def qaPromptText (num_files : Nat) (file_list collection_summary combined_text
    question _relevant_chunks : String) : String :=
  "You are answering questions about a collection of " ++ toString num_files ++
  " documents. Use the provided context to give comprehensive answers.\nDocument Collection:\n" ++
  file_list ++ "\nCollection Summary:\n" ++ collection_summary ++
  "\nCombined Text (all documents):\n" ++ combined_text ++
  "\nUser Question: " ++ question ++
  "\nInstructions: answer from the provided context, name source documents, " ++
  "contrast sources when comparing, note missing information, use specific details.\nAnswer:"

/-- The context string assembled from the retrieved chunks (capped at 4000
characters with a truncation marker). -/
def qaContext (rel : List (CombinedChunk × ℚ)) : String :=
  let context_parts := rel.map fun p => "[From: " ++ p.1.file_name ++ "]\n" ++ p.1.content
  let relevant_context :=
    if context_parts.isEmpty then "No specific relevant context found."
    else String.intercalate "\n\n" context_parts
  if relevant_context.length > 4000 then
    pyTake 4000 relevant_context ++ "\n\n[Context truncated...]"
  else relevant_context

/-- The file list line-per-file in `answer_multi_document_question`. -/
def qaFileLines (st : MultiFileDocumentState) : List String :=
  (st.file_upload_order.filterMap (lookupFile st.files)).filterMap fun f =>
    if f.processing_status = ProcessingStatus.OCR_COMPLETE then
      some ("- " ++ f.file_name ++ " (" ++ upperStr f.file_type ++ ")")
    else none

/-- The full prompt sent to the model for `question`. -/
def qaPromptFor (env : QAEnv) (question : String) (st : MultiFileDocumentState) : String :=
  qaPromptText (qaFileLines st).length (String.intercalate "\n" (qaFileLines st))
    (st.combined_summary.getD "No summary available.")
    (match st.combined_text with
     | none => "None"
     | some t => t)
    question
    (qaContext (MultiFileQAAgent.retrieve_relevant_chunks st.combined_chunks
      (qaVectors env st question) 6))

/-- `MultiFileQAAgent.answer_multi_document_question`: retrieval and the
model call happen inside a catch-all, so a failure yields the apology
string rather than an exception. -/
def MultiFileQAAgent.answer_multi_document_question (env : QAEnv) (question : String)
    (st : MultiFileDocumentState) : String :=
  match env.llm (qaPromptFor env question st) with
  | .ok r => stripString r
  | .error e =>
    "I apologize, but I encountered an error while processing your question " ++
    "about the document collection: " ++ e

/-- LangGraph node `process_multi_document_question` (lines 164-218). -/
def process_multi_document_question (env : QAEnv) (st : MultiFileDocumentState) :
    MultiFileDocumentState :=
  match st.current_query with
  | none => { st with response := some "No question provided." }
  | some q =>
    if q = "" then { st with response := some "No question provided." }
    else if st.overall_status ≠ ProcessingStatus.SUMMARIZED then
      let msg :=
        "Documents are not ready for questions yet. Please wait for processing to complete."
      { st with response := some msg }
    else
      let answer := MultiFileQAAgent.answer_multi_document_question env q st
      let rel := MultiFileQAAgent.retrieve_relevant_chunks st.combined_chunks
        (qaVectors env st q) 5
      { st with
        response := some answer
        relevant_chunks := rel
        chat_history := st.chat_history ++
          [{ role := "user", content := q }, { role := "assistant", content := answer }] }

/-! ### Specification predicates for the `clean_text` analysis -/

/-- Whitespace-normal form: every whitespace character is a plain space,
and no two adjacent characters are both whitespace. -/
def wsNormB : List Char → Bool
  | [] => true
  | [c] => !isSpaceChar c || c = ' '
  | a :: b :: rest =>
    (!isSpaceChar a || a = ' ') && !(isSpaceChar a && isSpaceChar b) && wsNormB (b :: rest)

/-- No occurrence of `d` in the list is standalone (word boundaries on
both sides); `prev` is the character preceding the list, as in
`fixStandalone`. -/
def nsB (d : Char) : Option Char → List Char → Bool
  | _, [] => true
  | prev, c :: rest => !(c = d && lbOf prev && rbOf rest) && nsB d (some c) rest

/-! ### Concrete fixtures for witnesses and counterexamples -/

/-- A freshly initialized batch state. -/
def emptyState : MultiFileDocumentState where
  uploaded_file_paths := []
  overall_status := ProcessingStatus.IDLE
  current_step := "upload"
  processing_progress := [("overall", 0)]
  error_message := none
  files := []
  file_upload_order := []
  total_files := 0
  files_completed := 0
  combined_text := none
  combined_chunks := []
  combined_summary := none
  suggested_questions := []
  document_relationships := []
  current_query := none
  response := none
  chat_history := []
  relevant_chunks := []
  max_chunk_size := 1000
  overlap_size := 200

/-- An admitted file record awaiting extraction. -/
def fileA : FileInfo where
  file_id := "fid-a"
  file_name := "a.pdf"
  file_path := "data/uploads/a_1.pdf"
  file_type := "pdf"
  file_size := 10
  upload_timestamp := 0
  processing_status := ProcessingStatus.UPLOADED

/-- A second admitted file record. -/
def fileB : FileInfo where
  file_id := "fid-b"
  file_name := "b.png"
  file_path := "data/uploads/b_1.png"
  file_type := "image"
  file_size := 20
  upload_timestamp := 0
  processing_status := ProcessingStatus.UPLOADED

/-- An extraction service that always raises. -/
def ocrFailEnv : OcrEnv := ⟨fun _ _ => Except.error "ocr backend unavailable"⟩

/-- An extraction service that always returns the same small text. -/
def ocrOkEnv : OcrEnv := ⟨fun _ _ => Except.ok ("hello world", mkRat 9 10)⟩

/-- A language model that always raises. -/
def llmFailEnv : LlmEnv := ⟨fun _ => Except.error "LM down"⟩

/-- A state that has passed extraction (used against the summarizer). -/
def stOcrDone : MultiFileDocumentState :=
  { emptyState with
    overall_status := ProcessingStatus.OCR_COMPLETE
    combined_text := some "Doc content" }

/-- A summarized state carrying a pending question. -/
def stReady : MultiFileDocumentState :=
  { emptyState with
    overall_status := ProcessingStatus.SUMMARIZED
    current_query := some "What is covered?" }

/-- A not-yet-summarized state carrying a pending question. -/
def stNotReady : MultiFileDocumentState :=
  { emptyState with
    overall_status := ProcessingStatus.OCR_COMPLETE
    current_query := some "What is covered?" }

/-- A QA environment whose model call fails and whose index similarities
are empty. -/
def qaEnvDown : QAEnv := ⟨fun _ => Except.error "LM down", fun _ => [], true⟩

/-- Distinct corpus chunks used to observe retrieval tie-breaking. -/
def chunkA : CombinedChunk :=
  { content := "alpha text", file_id := "fid-a", file_name := "a.pdf",
    file_type := "pdf", chunk_index := 0, metadata := none }

/-- Second corpus chunk. -/
def chunkB : CombinedChunk :=
  { content := "beta text", file_id := "fid-b", file_name := "b.png",
    file_type := "image", chunk_index := 0, metadata := none }

/-- Re-joining a chunk sequence under the claimed fixed-overlap law: each
chunk after the first begins `ov` characters before the end of the
previous one, so re-joining drops the first `ov` characters of every chunk
after the first. -/
def overlapJoin (ov : Nat) : List String → String
  | [] => ""
  | c :: rest => c ++ String.join (rest.map fun s => String.mk (s.data.drop ov))

/-- A state holding one admitted file. -/
def stOneFile : MultiFileDocumentState :=
  { emptyState with
    files := [("fid-a", fileA)]
    file_upload_order := ["fid-a"]
    total_files := 1 }

/-- A state holding two admitted files. -/
def stTwoFiles : MultiFileDocumentState :=
  { emptyState with
    files := [("fid-a", fileA), ("fid-b", fileB)]
    file_upload_order := ["fid-a", "fid-b"]
    total_files := 2 }

/-- An extraction service for which `a.pdf` succeeds and everything else
raises. -/
def ocrMixedEnv : OcrEnv :=
  ⟨fun path _ =>
    if path = "data/uploads/a_1.pdf" then Except.ok ("hello world", mkRat 9 10)
    else Except.error "ocr backend unavailable"⟩

/-- An extraction service for which `a.pdf` yields normal text and every
other file yields "@@@": raw text that is non-blank (so it passes the
blank-text gate) but is erased by cleaning, since characters outside the
allow-set become spaces and the result strips to empty. -/
def ocrPunctEnv : OcrEnv :=
  ⟨fun path _ =>
    if path = "data/uploads/a_1.pdf" then Except.ok ("hello world", mkRat 9 10)
    else Except.ok ("@@@", mkRat 1 2)⟩

/-- An upload environment: `tmp/a.pdf` exists with a small size,
`tmp/big.pdf` exists but exceeds the limit, anything else is missing;
saving always succeeds; identifiers come from a counter. -/
def uploadEnvA : UploadEnv where
  fsSize := fun p =>
    if p = "tmp/a.pdf" then some 100
    else if p = "tmp/big.pdf" then some (Config.MAX_FILE_SIZE + 1)
    else none
  save := fun _ n => Except.ok ("data/uploads/" ++ n, "pdf", 100)
  uuid := fun i => "uuid-" ++ toString i
  now := 0

/-- A fresh state submitting one valid and one oversized file. -/
def stUploads : MultiFileDocumentState :=
  { emptyState with
    uploaded_file_paths := [("tmp/a.pdf", "a.pdf"), ("tmp/big.pdf", "big.pdf")] }

/-- A fresh state submitting only an oversized file. -/
def stUploadsBad : MultiFileDocumentState :=
  { emptyState with uploaded_file_paths := [("tmp/big.pdf", "big.pdf")] }

/-! ## Theorems for the claims -/

/-- C6: for every batch state whose overall_status is not summarized,
calling ask (`process_multi_document_question`) with a question returns the
state unchanged apart from a user-facing "not ready" response, and in
particular `chat_history` is unchanged. -/
theorem C6_ask_not_ready (env : QAEnv) (st : MultiFileDocumentState) (q : String)
    (hq : st.current_query = some q) (hne : q ≠ "")
    (hs : st.overall_status ≠ ProcessingStatus.SUMMARIZED) :
    process_multi_document_question env st =
      { st with response := some "Documents are not ready for questions yet. Please wait for processing to complete." } ∧
    (process_multi_document_question env st).chat_history = st.chat_history := by
  have h1 : process_multi_document_question env st =
      { st with response := some "Documents are not ready for questions yet. Please wait for processing to complete." } := by
    unfold process_multi_document_question
    rw [hq]
    simp [hne, hs]
  exact ⟨h1, by rw [h1]⟩

/-- Witness for C6 at a concrete not-ready state. -/
theorem C6_ask_not_ready_witness :
    stNotReady.current_query = some "What is covered?" ∧
    ("What is covered?" ≠ "") ∧
    stNotReady.overall_status ≠ ProcessingStatus.SUMMARIZED ∧
    (process_multi_document_question qaEnvDown stNotReady).chat_history =
      stNotReady.chat_history := by
  refine ⟨rfl, by decide, by decide, ?_⟩
  exact (C6_ask_not_ready qaEnvDown stNotReady "What is covered?" rfl (by decide)
    (by decide)).2

/-- C7: on a ready batch, whether the model call succeeds or fails, exactly
two entries are appended to `chat_history`: first the user question, then
the assistant answer (the model response trimmed, or the apology text built
from the error). -/
theorem C7_chat_two_appends (env : QAEnv) (st : MultiFileDocumentState) (q : String)
    (hq : st.current_query = some q) (hne : q ≠ "")
    (hs : st.overall_status = ProcessingStatus.SUMMARIZED) :
    (process_multi_document_question env st).chat_history =
      st.chat_history ++
        [{ role := "user", content := q },
         { role := "assistant",
           content := MultiFileQAAgent.answer_multi_document_question env q st }] ∧
    ((∃ t, env.llm (qaPromptFor env q st) = Except.ok t ∧
        MultiFileQAAgent.answer_multi_document_question env q st = stripString t) ∨
     (∃ e, env.llm (qaPromptFor env q st) = Except.error e ∧
        MultiFileQAAgent.answer_multi_document_question env q st =
          "I apologize, but I encountered an error while processing your question " ++
          "about the document collection: " ++ e)) := by
  constructor
  · unfold process_multi_document_question
    rw [hq]
    simp [hne, hs]
  · unfold MultiFileQAAgent.answer_multi_document_question
    rcases h : env.llm (qaPromptFor env q st) with e | t
    · exact Or.inr ⟨e, rfl, rfl⟩
    · exact Or.inl ⟨t, rfl, rfl⟩

/-- Witness for C7 at a concrete ready state with a failing model. -/
theorem C7_chat_two_appends_witness :
    stReady.current_query = some "What is covered?" ∧
    ("What is covered?" ≠ "") ∧
    stReady.overall_status = ProcessingStatus.SUMMARIZED ∧
    (process_multi_document_question qaEnvDown stReady).chat_history =
      stReady.chat_history ++
        [{ role := "user", content := "What is covered?" },
         { role := "assistant",
           content := MultiFileQAAgent.answer_multi_document_question qaEnvDown
             "What is covered?" stReady }] := by
  refine ⟨rfl, by decide, by decide, ?_⟩
  exact (C7_chat_two_appends qaEnvDown stReady "What is covered?" rfl (by decide)
    (by decide)).1

/-- Updating a key in an association map and reading it back yields the
written value. -/
theorem getAssoc_setAssoc (k : String) (v : Int) (m : List (String × Int)) :
    getAssoc (setAssoc k v m) k = some v := by
  induction m with
  | nil => simp [setAssoc, getAssoc]
  | cons p rest ih =>
    by_cases h : p.1 = k
    · simp [setAssoc, getAssoc, h]
    · simp only [setAssoc, if_neg h]
      simp only [getAssoc, List.find?] at ih ⊢
      rw [show (p.1 == k) = false from by simp [h]]
      exact ih

/-- The argsort comparison is total. -/
instance argsortLe_total (sims : List ℚ) : IsTotal Nat (argsortLe sims) where
  total i j := by
    unfold argsortLe
    rcases lt_trichotomy (sims.getD i 0) (sims.getD j 0) with h | h | h
    · exact Or.inl (Or.inl h)
    · rcases Nat.le_total i j with hij | hij
      · exact Or.inl (Or.inr ⟨h, hij⟩)
      · exact Or.inr (Or.inr ⟨h.symm, hij⟩)
    · exact Or.inr (Or.inl h)

/-- The argsort comparison is transitive. -/
instance argsortLe_trans (sims : List ℚ) : IsTrans Nat (argsortLe sims) where
  trans i j k hij hjk := by
    unfold argsortLe at hij hjk ⊢
    rcases hij with h1 | ⟨he1, hl1⟩ <;> rcases hjk with h2 | ⟨he2, hl2⟩
    · exact Or.inl (h1.trans h2)
    · exact Or.inl (he2 ▸ h1)
    · exact Or.inl (by rw [he1]; exact h2)
    · exact Or.inr ⟨he1.trans he2, hl1.trans hl2⟩

/-- The reversed argsort is strictly descending: by score, with the larger
index first among equal scores. -/
theorem argsort_reverse_strict (sims : List ℚ) :
    ((argsortAsc sims).reverse).Pairwise
      (fun i j => sims.getD j 0 < sims.getD i 0 ∨
        (sims.getD i 0 = sims.getD j 0 ∧ j < i)) := by
  rw [List.pairwise_reverse]
  have hs : (argsortAsc sims).Sorted (argsortLe sims) :=
    List.sorted_insertionSort _ _
  have hn : (argsortAsc sims).Nodup :=
    (List.perm_insertionSort (argsortLe sims) (List.range sims.length)).nodup_iff.mpr
      (List.nodup_range _)
  refine (hs.and hn).imp ?_
  rintro a b ⟨hab, hne⟩
  rcases hab with h | ⟨he, hle⟩
  · exact Or.inl h
  · exact Or.inr ⟨he.symm, lt_of_le_of_ne hle hne⟩

/-- The filtered top-k index-score pairs inherit the strict descending
order. -/
theorem retrieve_pre_pairwise (sims : List ℚ) (k : Nat) :
    (((argsortAsc sims).reverse.take k).filterMap (fun i =>
      if sims.getD i 0 > simThreshold then some (i, sims.getD i 0) else none)).Pairwise
      (fun a b : Nat × ℚ => b.2 < a.2 ∨ (a.2 = b.2 ∧ b.1 < a.1)) := by
  have h2 := List.Pairwise.sublist (List.take_sublist k _) (argsort_reverse_strict sims)
  rw [List.pairwise_filterMap]
  refine h2.imp ?_
  intro i j hij x hx y hy
  by_cases hi : sims.getD i 0 > simThreshold
  · by_cases hj : sims.getD j 0 > simThreshold
    · rw [if_pos hi, Option.mem_def, Option.some_inj] at hx
      rw [if_pos hj, Option.mem_def, Option.some_inj] at hy
      subst hx
      subst hy
      exact hij
    · rw [if_neg hj] at hy
      exact absurd hy (by simp)
  · rw [if_neg hi] at hx
    exact absurd hx (by simp)

/-- Python's stable sort at the end of `retrieve_relevant_chunks` is the
identity: its input is already sorted by descending score. -/
theorem retrieveIdx_eq (sims : List ℚ) (k : Nat) :
    retrieveIdx sims k =
      ((argsortAsc sims).reverse.take k).filterMap (fun i =>
        if sims.getD i 0 > simThreshold then some (i, sims.getD i 0) else none) := by
  unfold retrieveIdx
  apply List.Sorted.insertionSort_eq
  refine (retrieve_pre_pairwise sims k).imp ?_
  intro a b h
  rcases h with h | ⟨he, _⟩
  · exact le_of_lt h
  · exact le_of_eq he.symm

/-- The pairs returned by `retrieveIdx` are strictly ordered: descending
score, and among equal scores the later corpus index first. -/
theorem retrieveIdx_pairwise (sims : List ℚ) (k : Nat) :
    (retrieveIdx sims k).Pairwise
      (fun a b : Nat × ℚ => b.2 < a.2 ∨ (a.2 = b.2 ∧ b.1 < a.1)) := by
  rw [retrieveIdx_eq]
  exact retrieve_pre_pairwise sims k

/-- `retrieveIdx` returns at most `top_k` pairs. -/
theorem retrieveIdx_length (sims : List ℚ) (k : Nat) :
    (retrieveIdx sims k).length ≤ k := by
  rw [retrieveIdx_eq]
  exact le_trans (List.length_filterMap_le _ _) (List.length_take_le _ _)

/-- Every score returned by `retrieveIdx` is strictly above the 0.1
threshold, and is the similarity of its index. -/
theorem retrieveIdx_mem (sims : List ℚ) (k : Nat) (p : Nat × ℚ)
    (hp : p ∈ retrieveIdx sims k) : simThreshold < p.2 ∧ p.2 = sims.getD p.1 0 := by
  rw [retrieveIdx_eq] at hp
  obtain ⟨i, _, hi⟩ := List.mem_filterMap.mp hp
  by_cases h : sims.getD i 0 > simThreshold
  · rw [if_pos h, Option.some_inj] at hi
    subst hi
    exact ⟨h, rfl⟩
  · rw [if_neg h] at hi
    exact absurd hi (by simp)

/-- When no similarity clears the threshold, `retrieveIdx` is empty. -/
theorem retrieveIdx_eq_nil (sims : List ℚ) (k : Nat)
    (h : ∀ x ∈ sims, x ≤ simThreshold) : retrieveIdx sims k = [] := by
  rw [retrieveIdx_eq]
  rw [List.filterMap_eq_nil_iff]
  intro i _
  have hle : sims.getD i 0 ≤ simThreshold := by
    by_cases hi : i < sims.length
    · rw [List.getD_eq_getElem _ _ hi]
      exact h _ (List.getElem_mem hi)
    · rw [List.getD_eq_default _ _ (Nat.le_of_not_lt hi)]
      decide
  rw [if_neg (not_lt.mpr hle)]

/-- C2 counterexample: with two equally scored chunks, retrieval returns
them in REVERSE corpus order (the later chunk first), so ties are not
broken by original corpus order as claimed. -/
theorem C2_counterexample :
    MultiFileQAAgent.retrieve_relevant_chunks [chunkA, chunkB]
      (some [mkRat 1 2, mkRat 1 2]) 2 = [(chunkB, mkRat 1 2), (chunkA, mkRat 1 2)] ∧
    MultiFileQAAgent.retrieve_relevant_chunks [chunkA, chunkB]
      (some [mkRat 1 2, mkRat 1 2]) 2 ≠ [(chunkA, mkRat 1 2), (chunkB, mkRat 1 2)] := by
  decide

/-- C2 amended: retrieval returns at most `top_k` results, every returned
score is strictly greater than 0.1, results are sorted by descending
score, and the empty sequence (not an error) is returned when the index
has not been built or when no chunk clears the threshold; among results
with equal scores, however, the order is reverse corpus order (the
selection reverses a stable ascending argsort), not original corpus
order. -/
theorem C2_amended (chunks : List CombinedChunk) (vecs : Option (List ℚ)) (top_k : Nat) :
    simThreshold = 1 / 10 ∧
    (MultiFileQAAgent.retrieve_relevant_chunks chunks vecs top_k).length ≤ top_k ∧
    (∀ p ∈ MultiFileQAAgent.retrieve_relevant_chunks chunks vecs top_k,
      simThreshold < p.2) ∧
    (MultiFileQAAgent.retrieve_relevant_chunks chunks vecs top_k).Pairwise
      (fun a b => b.2 ≤ a.2) ∧
    (vecs = none → MultiFileQAAgent.retrieve_relevant_chunks chunks vecs top_k = []) ∧
    (∀ sims, vecs = some sims → (∀ x ∈ sims, x ≤ simThreshold) →
      MultiFileQAAgent.retrieve_relevant_chunks chunks vecs top_k = []) ∧
    (∀ sims, vecs = some sims → chunks ≠ [] →
      MultiFileQAAgent.retrieve_relevant_chunks chunks vecs top_k =
        (retrieveIdx sims top_k).map (fun p => (chunks.getD p.1 defaultChunk, p.2)) ∧
      (retrieveIdx sims top_k).Pairwise
        (fun a b : Nat × ℚ => b.2 < a.2 ∨ (a.2 = b.2 ∧ b.1 < a.1))) := by
  have hth : simThreshold = 1 / 10 := by
    rw [show simThreshold = mkRat 1 10 from rfl, Rat.mkRat_eq_div]
    norm_num
  unfold MultiFileQAAgent.retrieve_relevant_chunks
  by_cases hc : chunks.isEmpty
  · rw [if_pos hc]
    refine ⟨hth, Nat.zero_le _, by simp, List.Pairwise.nil, fun _ => rfl,
      fun _ _ _ => rfl, ?_⟩
    intro sims _ hne
    exact absurd (List.isEmpty_iff.mp hc) hne
  · rw [if_neg hc]
    cases vecs with
    | none =>
      refine ⟨hth, Nat.zero_le _, by simp, List.Pairwise.nil, fun _ => rfl,
        fun sims hv => absurd hv (by simp), fun sims hv => absurd hv (by simp)⟩
    | some sims =>
      refine ⟨hth, ?_, ?_, ?_, fun hv => absurd hv (by simp), ?_, ?_⟩
      · show ((retrieveIdx sims top_k).map
          (fun p => (chunks.getD p.1 defaultChunk, p.2))).length ≤ top_k
        rw [List.length_map]
        exact retrieveIdx_length sims top_k
      · intro p hp
        obtain ⟨q, hq, rfl⟩ := List.mem_map.mp hp
        exact (retrieveIdx_mem sims top_k q hq).1
      · show ((retrieveIdx sims top_k).map
          (fun p => (chunks.getD p.1 defaultChunk, p.2))).Pairwise (fun a b => b.2 ≤ a.2)
        rw [List.pairwise_map]
        refine (retrieveIdx_pairwise sims top_k).imp ?_
        intro a b h
        rcases h with h | ⟨he, _⟩
        · exact le_of_lt h
        · exact le_of_eq he.symm
      · intro sims2 hv hall
        have hss : sims2 = sims := by
          injection hv.symm
        subst hss
        show (retrieveIdx sims2 top_k).map
          (fun p => (chunks.getD p.1 defaultChunk, p.2)) = []
        rw [retrieveIdx_eq_nil sims2 top_k hall, List.map_nil]
      · intro sims2 hv _
        have hss : sims2 = sims := by
          injection hv.symm
        subst hss
        exact ⟨rfl, retrieveIdx_pairwise sims2 top_k⟩

/-- Witness for C2 amended: concrete below-threshold query returns empty,
and a length bound at `top_k = 1`. -/
theorem C2_amended_witness :
    (∀ x ∈ [mkRat 1 20, mkRat 1 100], x ≤ simThreshold) ∧
    MultiFileQAAgent.retrieve_relevant_chunks [chunkA, chunkB]
      (some [mkRat 1 20, mkRat 1 100]) 3 = [] ∧
    (MultiFileQAAgent.retrieve_relevant_chunks [chunkA, chunkB]
      (some [mkRat 2 3, mkRat 1 3]) 1).length ≤ 1 := by
  refine ⟨by decide, ?_, ?_⟩
  · exact (C2_amended [chunkA, chunkB] (some [mkRat 1 20, mkRat 1 100]) 3).2.2.2.2.2.1
      [mkRat 1 20, mkRat 1 100] rfl (by decide)
  · exact (C2_amended [chunkA, chunkB] (some [mkRat 2 3, mkRat 1 3]) 1).2.1

/-- The per-file processing step keeps the file name. -/
theorem process_single_file_name (env : OcrEnv) (cs ov : Nat) (f : FileInfo) :
    (process_single_file env cs ov f).file_name = f.file_name := by
  unfold process_single_file
  rcases env.extract f.file_path f.file_type with e | ⟨raw, conf⟩
  · rfl
  · by_cases h : stripString raw = "" <;> simp [h]

/-- The per-file processing step keeps the file identifier. -/
theorem process_single_file_id (env : OcrEnv) (cs ov : Nat) (f : FileInfo) :
    (process_single_file env cs ov f).file_id = f.file_id := by
  unfold process_single_file
  rcases env.extract f.file_path f.file_type with e | ⟨raw, conf⟩
  · rfl
  · by_cases h : stripString raw = "" <;> simp [h]

/-- The per-file processing step ends in `OCR_COMPLETE` exactly when the
file does not fail extraction. -/
theorem process_single_file_status (env : OcrEnv) (cs ov : Nat) (f : FileInfo) :
    ((process_single_file env cs ov f).processing_status =
      ProcessingStatus.OCR_COMPLETE ↔ ¬ fileFails env f) := by
  unfold process_single_file fileFails
  rcases env.extract f.file_path f.file_type with e | ⟨raw, conf⟩
  · simp
  · by_cases h : stripString raw = "" <;> simp [h]

/-- The success filter over processed files is the no-failure filter over
the input files. -/
theorem filter_status_eq (env : OcrEnv) :
    (fun p : String × FileInfo =>
      decide ((process_single_file env 2000 250 p.2).processing_status =
        ProcessingStatus.OCR_COMPLETE)) =
    (fun p : String × FileInfo => !decide (fileFails env p.2)) := by
  funext p
  have h := process_single_file_status env 2000 250 p.2
  by_cases hf : fileFails env p.2 <;> simp [h, hf]

/-- The failure filter over processed files is the failure filter over the
input files. -/
theorem filter_status_ne_eq (env : OcrEnv) :
    (fun p : String × FileInfo =>
      !decide ((process_single_file env 2000 250 p.2).processing_status =
        ProcessingStatus.OCR_COMPLETE)) =
    (fun p : String × FileInfo => decide (fileFails env p.2)) := by
  funext p
  have h := process_single_file_status env 2000 250 p.2
  by_cases hf : fileFails env p.2 <;> simp [h, hf]

/-- C1: for every non-empty admitted set where at least one file fails
extraction, `process_all_files_ocr` sets `overall_status = error` and the
error message names exactly the failed files (the files that fail
extraction), by file name, in batch order. -/
theorem C1_completion_gate (env : OcrEnv) (st : MultiFileDocumentState)
    (h1 : st.files ≠ [])
    (h2 : ∃ p ∈ st.files, fileFails env p.2) :
    (process_all_files_ocr env st).overall_status = ProcessingStatus.ERROR ∧
    (process_all_files_ocr env st).error_message = some
      ("OCR processing failed: All files must be successfully processed. " ++
       "Failed files: " ++ String.intercalate ", "
         ((st.files.filter (fun p => decide (fileFails env p.2))).map (·.2.file_name))) := by
  have h1' : st.files.isEmpty = false := by simpa [List.isEmpty_iff] using h1
  obtain ⟨p0, hp0, hfail0⟩ := h2
  have key : ((st.files.map
      (fun p => (p.1, process_single_file env 2000 250 p.2))).filter
      (fun p => decide (p.2.processing_status = ProcessingStatus.OCR_COMPLETE))).length ≠
      st.files.length := by
    rw [List.filter_map]
    rw [List.length_map]
    apply Nat.ne_of_lt
    rw [List.length_filter_lt_length_iff_exists]
    refine ⟨p0, hp0, ?_⟩
    simp [Function.comp, process_single_file_status, hfail0]
  have hfailed : ((st.files.map
      (fun p => (p.1, process_single_file env 2000 250 p.2))).filter
      (fun p => !decide (p.2.processing_status = ProcessingStatus.OCR_COMPLETE))).map
        (·.2.file_name) =
      (st.files.filter (fun p => decide (fileFails env p.2))).map (·.2.file_name) := by
    rw [List.filter_map, List.map_map]
    rw [show ((fun p : String × FileInfo =>
        !decide (p.2.processing_status = ProcessingStatus.OCR_COMPLETE)) ∘
        (fun p : String × FileInfo => (p.1, process_single_file env 2000 250 p.2))) =
        (fun p : String × FileInfo => decide (fileFails env p.2)) from by
      rw [← filter_status_ne_eq env]
      rfl]
    apply List.map_congr_left
    intro a _
    simp [process_single_file_name]
  unfold process_all_files_ocr
  simp only [h1', Bool.false_eq_true, if_false]
  constructor
  · split
    · rfl
    · next hC =>
      exact absurd key hC
  · split
    · next hC =>
      simp only [Option.some.injEq]
      rw [hfailed]
    · next hC =>
      exact absurd key hC

/-- Witness for C1: two files where the second one fails extraction; the
error message names exactly `b.png`. -/
theorem C1_completion_gate_witness :
    stTwoFiles.files ≠ [] ∧
    (∃ p ∈ stTwoFiles.files, fileFails ocrMixedEnv p.2) ∧
    (process_all_files_ocr ocrMixedEnv stTwoFiles).overall_status =
      ProcessingStatus.ERROR ∧
    (process_all_files_ocr ocrMixedEnv stTwoFiles).error_message = some
      ("OCR processing failed: All files must be successfully processed. " ++
       "Failed files: " ++ String.intercalate ", "
         ((stTwoFiles.files.filter
           (fun p => decide (fileFails ocrMixedEnv p.2))).map (·.2.file_name))) := by
  have h := C1_completion_gate ocrMixedEnv stTwoFiles (by decide)
    ⟨("fid-b", fileB), by decide, by decide⟩
  exact ⟨by decide, ⟨("fid-b", fileB), by decide, by decide⟩, h.1, h.2⟩

/-- A successfully processed file carries some processed text. -/
theorem process_single_file_processed (env : OcrEnv) (cs ov : Nat) (f : FileInfo)
    (h : ¬ fileFails env f) :
    ∃ t, (process_single_file env cs ov f).processed_text = some t := by
  unfold fileFails at h
  unfold process_single_file
  rcases hE : env.extract f.file_path f.file_type with e | ⟨raw, conf⟩
  · rw [hE] at h
    exact absurd trivial h
  · rw [hE] at h
    simp only [if_neg h]
    exact ⟨_, rfl⟩

/-- A `filterMap` that acts as a guarded `map` on every element of the
list equals a `filter` followed by a `map`. -/
theorem filterMap_guard_eq {α β : Type} (q : α → Bool) (f : α → β)
    (l : List α) (g : α → Option β)
    (hg : ∀ a ∈ l, g a = if q a then some (f a) else none) :
    l.filterMap g = (l.filter q).map f := by
  induction l with
  | nil => rfl
  | cons a t ih =>
    have hga := hg a (List.mem_cons_self _ _)
    have iht := ih (fun x hx => hg x (List.mem_cons_of_mem a hx))
    by_cases hq : q a = true
    · rw [if_pos hq] at hga
      rw [List.filterMap_cons_some hga, List.filter_cons_of_pos hq,
        List.map_cons, iht]
    · rw [if_neg hq] at hga
      rw [List.filterMap_cons_none hga,
        List.filter_cons_of_neg (by simpa using hq), iht]

/-- C3 counterexample: a two-file batch where every admitted file reaches
`ocr_complete` — the second file's raw text "@@@" is non-blank, so it
passes the blank-text gate, but cleaning erases it — yet `combined_text`
contains only the first file's headed text: the guard
`if file_info.processed_text:` silently drops the file whose cleaned text
is empty, so the claimed concatenation over all per-file headers fails. -/
theorem C3_counterexample :
    (∀ p ∈ (process_all_files_ocr ocrPunctEnv stTwoFiles).files,
      p.2.processing_status = ProcessingStatus.OCR_COMPLETE) ∧
    (process_all_files_ocr ocrPunctEnv stTwoFiles).overall_status =
      ProcessingStatus.OCR_COMPLETE ∧
    (process_all_files_ocr ocrPunctEnv stTwoFiles).combined_text ≠
      some (String.intercalate "\n\n"
        (stTwoFiles.files.map
          (fun p => fileHeader (process_single_file ocrPunctEnv 2000 250 p.2)))) ∧
    (process_all_files_ocr ocrPunctEnv stTwoFiles).combined_text =
      some "=== a.pdf ===\nhello world" := by
  decide

/-- C3 (amended): when every admitted file succeeds, extraction merges all
chunks of all files (tagged with the originating file's id, name and type
by `taggedChunks`) into `combined_chunks` and sets
`overall_status = ocr_complete` with `progress.overall = 80`;
`combined_text`, however, concatenates the headed texts of only those
files whose cleaned text is non-empty — a file whose raw text is
non-blank but cleans to empty reaches `ocr_complete` and is silently
omitted from `combined_text` (see the counterexample). -/
theorem C3_amended (env : OcrEnv) (st : MultiFileDocumentState)
    (h1 : st.files ≠ [])
    (h2 : ∀ p ∈ st.files, ¬ fileFails env p.2) :
    (process_all_files_ocr env st).overall_status = ProcessingStatus.OCR_COMPLETE ∧
    getAssoc (process_all_files_ocr env st).processing_progress "overall" = some 80 ∧
    (process_all_files_ocr env st).combined_chunks =
      st.files.flatMap (fun p => taggedChunks (process_single_file env 2000 250 p.2)) ∧
    (process_all_files_ocr env st).combined_text =
      some (String.intercalate "\n\n"
        ((st.files.filter (fun p =>
            decide ((process_single_file env 2000 250 p.2).processed_text ≠
              some ""))).map
          (fun p => fileHeader (process_single_file env 2000 250 p.2)))) := by
  have h1' : st.files.isEmpty = false := by simpa [List.isEmpty_iff] using h1
  have hsucc : (st.files.map (fun p => (p.1, process_single_file env 2000 250 p.2))).filter
      (fun p => decide (p.2.processing_status = ProcessingStatus.OCR_COMPLETE)) =
      st.files.map (fun p => (p.1, process_single_file env 2000 250 p.2)) := by
    rw [List.filter_eq_self]
    intro a ha
    obtain ⟨p, hp, rfl⟩ := List.mem_map.mp ha
    simp [process_single_file_status, h2 p hp]
  have hlen : ¬ ((st.files.map
      (fun p => (p.1, process_single_file env 2000 250 p.2))).filter
      (fun p => decide (p.2.processing_status = ProcessingStatus.OCR_COMPLETE))).length ≠
      st.files.length := by
    rw [hsucc, List.length_map]
    exact fun hne => hne rfl
  unfold process_all_files_ocr
  simp only [h1', Bool.false_eq_true, if_false]
  refine ⟨?_, ?_, ?_, ?_⟩ <;> split
  · next hC => exact absurd hC hlen
  · rfl
  · next hC => exact absurd hC hlen
  · exact getAssoc_setAssoc _ _ _
  · next hC => exact absurd hC hlen
  · rw [hsucc, List.flatMap_map]
  · next hC => exact absurd hC hlen
  · rw [hsucc, List.filterMap_map]
    refine congrArg some (congrArg (String.intercalate "\n\n") ?_)
    refine filterMap_guard_eq
      (fun p => decide ((process_single_file env 2000 250 p.2).processed_text ≠ some ""))
      (fun p => fileHeader (process_single_file env 2000 250 p.2)) st.files _ ?_
    intro p hp
    obtain ⟨t, ht⟩ := process_single_file_processed env 2000 250 p.2 (h2 p hp)
    simp only [Function.comp, ht]
    by_cases h0 : t = ""
    · subst h0
      simp
    · simp [h0]

/-- Witness for the amended C3 at a two-file batch where every file
succeeds but the second one cleans to empty and is dropped from
`combined_text`. -/
theorem C3_amended_witness :
    stTwoFiles.files ≠ [] ∧
    (∀ p ∈ stTwoFiles.files, ¬ fileFails ocrPunctEnv p.2) ∧
    (process_all_files_ocr ocrPunctEnv stTwoFiles).overall_status =
      ProcessingStatus.OCR_COMPLETE ∧
    getAssoc (process_all_files_ocr ocrPunctEnv stTwoFiles).processing_progress
      "overall" = some 80 ∧
    (process_all_files_ocr ocrPunctEnv stTwoFiles).combined_chunks =
      stTwoFiles.files.flatMap
        (fun p => taggedChunks (process_single_file ocrPunctEnv 2000 250 p.2)) ∧
    (process_all_files_ocr ocrPunctEnv stTwoFiles).combined_text =
      some (String.intercalate "\n\n"
        ((stTwoFiles.files.filter (fun p =>
            decide ((process_single_file ocrPunctEnv 2000 250 p.2).processed_text ≠
              some ""))).map
          (fun p => fileHeader (process_single_file ocrPunctEnv 2000 250 p.2)))) := by
  have h := C3_amended ocrPunctEnv stTwoFiles (by decide) (by decide)
  exact ⟨by decide, by decide, h.1, h.2.1, h.2.2.1, h.2.2.2⟩

/-- C5 counterexample: at a state with completed extraction and a failing
Language Model, the summarize node still ends `summarized` (not `error`);
the model failure is swallowed into an error-text summary. -/
theorem C5_counterexample :
    stOcrDone.overall_status = ProcessingStatus.OCR_COMPLETE ∧
    (generate_multi_document_summary llmFailEnv stOcrDone).overall_status =
      ProcessingStatus.SUMMARIZED ∧
    (generate_multi_document_summary llmFailEnv stOcrDone).overall_status ≠
      ProcessingStatus.ERROR ∧
    (generate_multi_document_summary llmFailEnv stOcrDone).combined_summary =
      some "Error generating summary: LM down" ∧
    (generate_multi_document_summary llmFailEnv stOcrDone).suggested_questions =
      fallbackQuestions := by decide

/-- C5 amended: summarize requires `ocr_complete` (otherwise `error` with
the precondition message); when the precondition holds it always sets
`summarized` and progress 100 — a failing Language Model call is caught
inside the summarizer and only degrades the summary text and the question
list, never the status. -/
theorem C5_amended (env : LlmEnv) (st : MultiFileDocumentState) :
    (st.overall_status ≠ ProcessingStatus.OCR_COMPLETE →
      (generate_multi_document_summary env st).overall_status = ProcessingStatus.ERROR ∧
      (generate_multi_document_summary env st).error_message =
        some "Summarization failed: OCR processing must be complete before summarization") ∧
    (st.overall_status = ProcessingStatus.OCR_COMPLETE →
      (generate_multi_document_summary env st).overall_status =
        ProcessingStatus.SUMMARIZED ∧
      getAssoc (generate_multi_document_summary env st).processing_progress "overall" =
        some 100 ∧
      (generate_multi_document_summary env st).combined_summary =
        some (MultiFileDocumentSummarizer.generate_combined_summary env
          { st with current_step := "summarize" })) := by
  constructor
  · intro h
    unfold generate_multi_document_summary
    simp [h]
  · intro h
    unfold generate_multi_document_summary
    simp [h, getAssoc_setAssoc]

/-- Witness for C5 amended, exercising both branches. -/
theorem C5_amended_witness :
    (emptyState.overall_status ≠ ProcessingStatus.OCR_COMPLETE ∧
      (generate_multi_document_summary llmFailEnv emptyState).overall_status =
        ProcessingStatus.ERROR) ∧
    (stOcrDone.overall_status = ProcessingStatus.OCR_COMPLETE ∧
      (generate_multi_document_summary llmFailEnv stOcrDone).overall_status =
        ProcessingStatus.SUMMARIZED) := by
  constructor
  · exact ⟨by decide, ((C5_amended llmFailEnv emptyState).1 (by decide)).1⟩
  · exact ⟨by decide, ((C5_amended llmFailEnv stOcrDone).2 (by decide)).1⟩

/-- C10 counterexample: on a state with no admitted files (where the node
raises before reaching the chunker setup), the chunking configuration is
not overwritten to 2000/250 — it keeps the configured defaults. -/
theorem C10_counterexample :
    emptyState.files = [] ∧
    emptyState.max_chunk_size = Config.MAX_CHUNK_SIZE ∧
    (process_all_files_ocr ocrFailEnv emptyState).max_chunk_size =
      Config.MAX_CHUNK_SIZE ∧
    (process_all_files_ocr ocrFailEnv emptyState).max_chunk_size ≠ 2000 := by decide

/-- C10 amended: whenever the admitted-file set is non-empty, the
extraction stage overwrites the chunking configuration to
`max_chunk_size = 2000`, `overlap_size = 250` and processes every file
with a chunker constructed from those values, never the configured
defaults `MAX_CHUNK_SIZE = 1000`, `CHUNK_OVERLAP = 200`. -/
theorem C10_amended (env : OcrEnv) (st : MultiFileDocumentState) (h : st.files ≠ []) :
    (process_all_files_ocr env st).max_chunk_size = 2000 ∧
    (process_all_files_ocr env st).overlap_size = 250 ∧
    (process_all_files_ocr env st).files =
      st.files.map (fun p => (p.1, process_single_file env 2000 250 p.2)) ∧
    (2000 ≠ Config.MAX_CHUNK_SIZE ∧ 250 ≠ Config.CHUNK_OVERLAP) := by
  unfold process_all_files_ocr
  have h1 : st.files.isEmpty = false := by
    simpa [List.isEmpty_iff] using h
  simp only [h1, Bool.false_eq_true, if_false]
  refine ⟨?_, ?_, ?_, by decide, by decide⟩ <;> split <;> rfl

/-- C4: submit excludes each file that fails validation without affecting
the rest of the batch (the admitted set is exactly the validated-and-saved
files, in submission order, and becomes `files`/`file_upload_order`);
`overall_status` becomes `error` exactly when zero files were admitted,
and with at least one admitted file it becomes `uploaded` with
`progress.overall = 20`. -/
theorem C4_upload_validation (env : UploadEnv) (st : MultiFileDocumentState)
    (h : st.overall_status ≠ ProcessingStatus.SUMMARIZED) :
    ((upload_multiple_files env st).overall_status = ProcessingStatus.ERROR ↔
      admittedList env st.uploaded_file_paths = []) ∧
    (admittedList env st.uploaded_file_paths ≠ [] →
      (upload_multiple_files env st).overall_status = ProcessingStatus.UPLOADED ∧
      getAssoc (upload_multiple_files env st).processing_progress "overall" = some 20 ∧
      (upload_multiple_files env st).files = admittedList env st.uploaded_file_paths ∧
      (upload_multiple_files env st).file_upload_order =
        (admittedList env st.uploaded_file_paths).map (·.1)) := by
  unfold upload_multiple_files
  rw [if_neg h]
  cases hu : st.uploaded_file_paths with
  | nil =>
    constructor
    · simp [admittedList]
    · intro hne
      exact absurd (by simp [admittedList]) hne
  | cons a rest =>
    by_cases ha : admittedList env (a :: rest) = []
    · constructor
      · simp [ha]
      · intro hne
        exact absurd ha hne
    · have hb : (admittedList env (a :: rest)).isEmpty = false := by
        simpa [List.isEmpty_iff] using ha
      simp only [hb, Bool.false_eq_true, if_false]
      constructor
      · constructor
        · intro hE
          simp at hE
        · intro h0
          exact absurd h0 ha
      · intro _
        exact ⟨trivial, by decide, trivial, trivial⟩

/-- Witness for C4 at a two-file submission where only the first file is
admitted (the second exceeds the size limit). -/
theorem C4_upload_validation_witness :
    stUploads.overall_status ≠ ProcessingStatus.SUMMARIZED ∧
    stUploads.uploaded_file_paths.length = 2 ∧
    (admittedList uploadEnvA stUploads.uploaded_file_paths).length = 1 ∧
    (upload_multiple_files uploadEnvA stUploads).overall_status =
      ProcessingStatus.UPLOADED ∧
    getAssoc (upload_multiple_files uploadEnvA stUploads).processing_progress "overall" =
      some 20 ∧
    (upload_multiple_files uploadEnvA stUploads).files =
      admittedList uploadEnvA stUploads.uploaded_file_paths := by
  have h := (C4_upload_validation uploadEnvA stUploads (by decide)).2 (by decide)
  exact ⟨by decide, by decide, by decide, h.1, h.2.1, h.2.2.1⟩

/-- Witness for C10 amended at a one-file state. -/
theorem C10_amended_witness :
    stOneFile.files ≠ [] ∧
    (process_all_files_ocr ocrFailEnv stOneFile).max_chunk_size = 2000 ∧
    (process_all_files_ocr ocrFailEnv stOneFile).overlap_size = 250 := by
  refine ⟨by decide, ?_, ?_⟩
  · exact (C10_amended ocrFailEnv stOneFile (by decide)).1
  · exact (C10_amended ocrFailEnv stOneFile (by decide)).2.1

/-! ### Whitespace normalization lemmas (towards C9) -/

/-- The tail of a whitespace-normal list is whitespace-normal. -/
theorem wsNormB_tail {a : Char} {l : List Char} (h : wsNormB (a :: l) = true) :
    wsNormB l = true := by
  cases l with
  | nil => rfl
  | cons b rest =>
    simp only [wsNormB, Bool.and_eq_true] at h
    exact h.2

/-- The head of a whitespace-normal list is a space or not whitespace. -/
theorem wsNormB_head {a : Char} {l : List Char} (h : wsNormB (a :: l) = true) :
    (!isSpaceChar a || a = ' ') = true := by
  cases l with
  | nil => exact h
  | cons b rest =>
    simp only [wsNormB, Bool.and_eq_true] at h
    exact h.1.1

/-- Collapsing a list that starts with whitespace yields a list that
starts with a space. -/
theorem collapseWs_cons_ws (l : List Char) :
    ∀ c : Char, isSpaceChar c = true → ∃ t, collapseWs (c :: l) = ' ' :: t := by
  induction l with
  | nil =>
    intro c h
    exact ⟨[], by simp [collapseWs, h]⟩
  | cons b rest ih =>
    intro c h
    by_cases hb : isSpaceChar b = true
    · obtain ⟨t, ht⟩ := ih b hb
      exact ⟨t, by simp [collapseWs, h, hb, ht]⟩
    · exact ⟨collapseWs (b :: rest), by simp [collapseWs, h, hb]⟩

/-- Collapsing a list that starts with non-whitespace keeps its head. -/
theorem collapseWs_cons_nonws (l : List Char) (c : Char) (h : isSpaceChar c = false) :
    ∃ t, collapseWs (c :: l) = c :: t := by
  cases l with
  | nil => exact ⟨[], by simp [collapseWs, h]⟩
  | cons b rest => exact ⟨collapseWs (b :: rest), by simp [collapseWs, h]⟩

/-- The output of `collapseWs` is whitespace-normal. -/
theorem collapseWs_wsNorm (l : List Char) : wsNormB (collapseWs l) = true := by
  induction l with
  | nil => rfl
  | cons a rest ih =>
    cases rest with
    | nil =>
      by_cases ha : isSpaceChar a = true <;> simp [collapseWs, wsNormB, ha]
    | cons b rest2 =>
      by_cases ha : isSpaceChar a = true
      · by_cases hb : isSpaceChar b = true
        · simpa [collapseWs, ha, hb] using ih
        · obtain ⟨t, ht⟩ := collapseWs_cons_nonws rest2 b (by simp [hb])
          rw [show collapseWs (a :: b :: rest2) = ' ' :: collapseWs (b :: rest2) from by
            simp [collapseWs, ha, hb]]
          rw [ht]
          rw [ht] at ih
          simp only [wsNormB, Bool.and_eq_true]
          refine ⟨⟨by decide, ?_⟩, ih⟩
          simp [hb]
      · rcases hx : collapseWs (b :: rest2) with _ | ⟨x, t⟩
        · rw [show collapseWs (a :: b :: rest2) = a :: collapseWs (b :: rest2) from by
            simp [collapseWs, ha]]
          rw [hx]
          simp [wsNormB, ha]
        · rw [show collapseWs (a :: b :: rest2) = a :: collapseWs (b :: rest2) from by
            simp [collapseWs, ha]]
          rw [hx]
          rw [hx] at ih
          simp only [wsNormB, Bool.and_eq_true] at ih ⊢
          exact ⟨⟨by simp [ha], by simp [ha]⟩, ih⟩

/-- `collapseWs` is the identity on whitespace-normal lists. -/
theorem collapseWs_id_of_wsNorm (l : List Char) (h : wsNormB l = true) :
    collapseWs l = l := by
  induction l with
  | nil => rfl
  | cons a rest ih =>
    cases rest with
    | nil =>
      by_cases ha : isSpaceChar a = true
      · have : a = ' ' := by
          have hh := wsNormB_head h
          simpa [ha] using hh
        simp [collapseWs, ha, this]
      · simp [collapseWs, ha]
    | cons b rest2 =>
      simp only [wsNormB, Bool.and_eq_true] at h
      obtain ⟨⟨h1, h2⟩, h3⟩ := h
      by_cases ha : isSpaceChar a = true
      · have ha' : a = ' ' := by simpa [ha] using h1
        have hb : isSpaceChar b = false := by
          rcases Bool.eq_false_or_eq_true (isSpaceChar b) with hb | hb
          · simp [ha, hb] at h2
          · exact hb
        simp only [collapseWs, ha, if_true, hb, Bool.false_eq_true, if_false]
        rw [ih h3, ha']
      · simp only [collapseWs, ha, Bool.false_eq_true, if_false]
        rw [ih h3]

/-- Dropping leading whitespace preserves whitespace-normal form. -/
theorem dropWhile_wsNorm (l : List Char) (h : wsNormB l = true) :
    wsNormB (l.dropWhile isSpaceChar) = true := by
  induction l with
  | nil => rfl
  | cons a rest ih =>
    by_cases ha : isSpaceChar a = true
    · rw [List.dropWhile_cons_of_pos (by simp [ha])]
      exact ih (wsNormB_tail h)
    · rwa [List.dropWhile_cons_of_neg (by simp [ha])]

/-- A list whose trailing-whitespace strip is empty is all whitespace. -/
theorem dropTrailingWs_nil_allws (l : List Char) (h : dropTrailingWs l = []) :
    ∀ c ∈ l, isSpaceChar c = true := by
  induction l with
  | nil => intro c hc; cases hc
  | cons x xs ih =>
    intro c hc
    rcases hr : dropTrailingWs xs with _ | ⟨r, rs⟩
    · rw [show dropTrailingWs (x :: xs) = if isSpaceChar x then [] else [x] from by
        simp [dropTrailingWs, hr]] at h
      by_cases hx : isSpaceChar x = true
      · rcases List.mem_cons.mp hc with rfl | hc2
        · exact hx
        · exact ih hr c hc2
      · simp [hx] at h
    · rw [show dropTrailingWs (x :: xs) = x :: r :: rs from by
        simp [dropTrailingWs, hr]] at h
      cases h

/-- Stripping trailing whitespace keeps the head (or empties the list). -/
theorem dropTrailingWs_head (x : Char) (xs : List Char) :
    dropTrailingWs (x :: xs) = [] ∨ ∃ t, dropTrailingWs (x :: xs) = x :: t := by
  rcases hr : dropTrailingWs xs with _ | ⟨r, rs⟩
  · by_cases hx : isSpaceChar x = true
    · exact Or.inl (by simp [dropTrailingWs, hr, hx])
    · exact Or.inr ⟨[], by simp [dropTrailingWs, hr, hx]⟩
  · exact Or.inr ⟨r :: rs, by simp [dropTrailingWs, hr]⟩

/-- Stripping trailing whitespace preserves whitespace-normal form. -/
theorem dropTrailingWs_wsNorm (l : List Char) (h : wsNormB l = true) :
    wsNormB (dropTrailingWs l) = true := by
  induction l with
  | nil => rfl
  | cons x xs ih =>
    rcases hr : dropTrailingWs xs with _ | ⟨r, rs⟩
    · rw [show dropTrailingWs (x :: xs) = if isSpaceChar x then [] else [x] from by
        simp [dropTrailingWs, hr]]
      by_cases hx : isSpaceChar x = true
      · simp [hx, wsNormB]
      · simp [hx, wsNormB]
    · rw [show dropTrailingWs (x :: xs) = x :: r :: rs from by
        simp [dropTrailingWs, hr]]
      have hxs : wsNormB (r :: rs) = true := by
        rw [← hr]
        exact ih (wsNormB_tail h)
      cases xs with
      | nil => cases hr
      | cons b tl =>
        have hrb : r = b := by
          rcases dropTrailingWs_head b tl with h0 | ⟨t, ht⟩
          · rw [h0] at hr; cases hr
          · rw [ht] at hr
            exact (List.cons.injEq _ _ _ _ ▸ hr).1.symm
        simp only [wsNormB, Bool.and_eq_true] at h ⊢
        refine ⟨⟨h.1.1, ?_⟩, hxs⟩
        rw [hrb]
        exact h.1.2

/-- Stripping trailing whitespace is idempotent. -/
theorem dropTrailingWs_idem (l : List Char) :
    dropTrailingWs (dropTrailingWs l) = dropTrailingWs l := by
  induction l with
  | nil => rfl
  | cons x xs ih =>
    rcases hr : dropTrailingWs xs with _ | ⟨r, rs⟩
    · rw [show dropTrailingWs (x :: xs) = if isSpaceChar x then [] else [x] from by
        simp [dropTrailingWs, hr]]
      by_cases hx : isSpaceChar x = true
      · simp [hx, dropTrailingWs]
      · simp [hx, dropTrailingWs]
    · rw [show dropTrailingWs (x :: xs) = x :: r :: rs from by
        simp [dropTrailingWs, hr]]
      have h2 : dropTrailingWs (r :: rs) = r :: rs := by
        rw [← hr] at *
        rw [ih]
      rw [show dropTrailingWs (x :: r :: rs) =
          (match dropTrailingWs (r :: rs) with
           | [] => if isSpaceChar x then [] else [x]
           | r2 => x :: r2) from rfl]
      rw [h2]

/-- The head of `stripChars` output satisfies no-leading-whitespace. -/
theorem stripChars_head (l : List Char) :
    stripChars l = [] ∨ ∃ c t, stripChars l = c :: t ∧ isSpaceChar c = false := by
  unfold stripChars
  rcases hd : l.dropWhile isSpaceChar with _ | ⟨c, t⟩
  · exact Or.inl rfl
  · have hc : isSpaceChar c = false := by
      have := List.head_dropWhile_not isSpaceChar l
      rw [hd] at this
      simpa using this (by simp)
    rcases dropTrailingWs_head c t with h0 | ⟨t2, ht2⟩
    · exact Or.inl h0
    · exact Or.inr ⟨c, t2, ht2, hc⟩

/-- `stripChars` is idempotent. -/
theorem stripChars_idem (l : List Char) : stripChars (stripChars l) = stripChars l := by
  rcases stripChars_head l with h0 | ⟨c, t, ht, hc⟩
  · rw [h0]; rfl
  · rw [ht]
    unfold stripChars
    rw [List.dropWhile_cons_of_neg (by simp [hc])]
    have : dropTrailingWs (c :: t) = c :: t := by
      have h1 : stripChars l = c :: t := ht
      unfold stripChars at h1
      rw [← h1]
      exact dropTrailingWs_idem _
    exact this

/-- `stripChars` preserves whitespace-normal form. -/
theorem stripChars_wsNorm (l : List Char) (h : wsNormB l = true) :
    wsNormB (stripChars l) = true :=
  dropTrailingWs_wsNorm _ (dropWhile_wsNorm _ h)

/-! ### Standalone-occurrence lemmas (towards C9) -/

/-- A whitespace character is not a word character. -/
theorem ws_not_word (c : Char) (h : isSpaceChar c = true) : isWordChar c = false := by
  simp only [isSpaceChar, Bool.or_eq_true, decide_eq_true_eq] at h
  rcases h with ((((rfl | rfl) | rfl) | rfl) | rfl) | rfl <;> decide

/-- A non-whitespace character is not the space character. -/
theorem not_space_of_not_ws {c : Char} (h : isSpaceChar c = false) : c ≠ ' ' := by
  intro he
  rw [he] at h
  simp [isSpaceChar] at h

/-- `nsB` depends on the previous character only through its boundary
status. -/
theorem nsB_congr (d : Char) (l : List Char) (p q : Option Char)
    (h : lbOf p = lbOf q) : nsB d p l = nsB d q l := by
  cases l with
  | nil => rfl
  | cons c rest => simp only [nsB, h]

/-- `nsB` is insensitive to the previous character when the head is not
the target. -/
theorem nsB_prev_irrel (d c : Char) (t : List Char) (hc : c ≠ d)
    (p q : Option Char) : nsB d p (c :: t) = nsB d q (c :: t) := by
  simp only [nsB, decide_eq_true_eq]
  rw [show (decide (c = d)) = false from by simp [hc]]
  simp

/-- `fixStandalone` is the identity when no standalone occurrence
exists. -/
theorem fixStandalone_id (d r : Char) (l : List Char) :
    ∀ p, nsB d p l = true → fixStandalone d r p l = l := by
  induction l with
  | nil => intro p _; rfl
  | cons c rest ih =>
    intro p h
    simp only [nsB, Bool.and_eq_true, Bool.not_eq_true'] at h
    simp only [fixStandalone, h.1, Bool.false_eq_true, if_false]
    rw [ih (some c) h.2]

/-- Replacing word characters by word characters does not move the right
boundary of the preceding position. -/
theorem rbOf_fixStandalone (d r : Char) (p : Option Char) (l : List Char)
    (hw : isWordChar d = isWordChar r) :
    rbOf (fixStandalone d r p l) = rbOf l := by
  cases l with
  | nil => rfl
  | cons c rest =>
    rw [show fixStandalone d r p (c :: rest) =
      (if decide (c = d) && lbOf p && rbOf rest then r else c) ::
        fixStandalone d r (some c) rest from rfl]
    by_cases hc : (decide (c = d) && lbOf p && rbOf rest) = true
    · rw [if_pos hc]
      have hcd : c = d := by
        simp only [Bool.and_eq_true, decide_eq_true_eq] at hc
        exact hc.1.1
      simp only [rbOf]
      rw [hcd, hw]
    · rw [if_neg hc]
      rfl

/-- After `fixStandalone d r`, no standalone occurrence of `d` remains
(for word characters `d`, `r` with `r ≠ d`). -/
theorem nsB_fixStandalone (d r : Char) (hd : isWordChar d = true)
    (hr : isWordChar r = true) (hdr : r ≠ d) (l : List Char) :
    ∀ p q, lbOf p = lbOf q → nsB d q (fixStandalone d r p l) = true := by
  induction l with
  | nil => intro p q _; rfl
  | cons c rest ih =>
    intro p q hpq
    by_cases hc : (decide (c = d) && lbOf p && rbOf rest) = true
    · have hcd : c = d := by
        simp only [Bool.and_eq_true, decide_eq_true_eq] at hc
        exact hc.1.1
      simp only [fixStandalone, hc, if_true, nsB, Bool.and_eq_true]
      constructor
      · simp [hdr]
      · apply ih (some c) (some r)
        simp [lbOf, hcd, hd, hr]
    · rw [Bool.not_eq_true] at hc
      simp only [fixStandalone, hc, Bool.false_eq_true, if_false, nsB,
        Bool.and_eq_true]
      constructor
      · rw [rbOf_fixStandalone d r (some c) rest (by rw [hd, hr]), ← hpq]
        simp only [Bool.not_eq_true']
        exact hc
      · exact ih (some c) (some c) rfl

/-- `fixStandalone d2 r2` preserves the absence of standalone `d` when
neither `d2` nor `r2` is `d` and the replacement preserves wordness. -/
theorem nsB_fixOther (d d2 r2 : Char) (_h1 : d2 ≠ d) (h2 : r2 ≠ d)
    (hw : isWordChar d2 = isWordChar r2) (l : List Char) :
    ∀ p q, lbOf p = lbOf q → nsB d p l = true →
      nsB d q (fixStandalone d2 r2 p l) = true := by
  induction l with
  | nil => intro p q _ _; rfl
  | cons c rest ih =>
    intro p q hpq h
    simp only [nsB, Bool.and_eq_true] at h
    obtain ⟨hhead, htail⟩ := h
    by_cases hc : (decide (c = d2) && lbOf p && rbOf rest) = true
    · have hcd : c = d2 := by
        simp only [Bool.and_eq_true, decide_eq_true_eq] at hc
        exact hc.1.1
      simp only [fixStandalone, hc, if_true, nsB, Bool.and_eq_true]
      constructor
      · simp [h2]
      · apply ih (some c) (some r2) ?_ htail
        simp [lbOf, hcd, hw]
    · rw [Bool.not_eq_true] at hc
      simp only [fixStandalone, hc, Bool.false_eq_true, if_false, nsB,
        Bool.and_eq_true]
      constructor
      · rw [rbOf_fixStandalone d2 r2 (some c) rest hw, ← hpq]
        exact hhead
      · exact ih (some c) (some c) rfl htail

/-- Collapsing whitespace does not move the right boundary of the
preceding position. -/
theorem rbOf_collapseWs (b : Char) (rest : List Char) :
    rbOf (collapseWs (b :: rest)) = rbOf (b :: rest) := by
  by_cases hb : isSpaceChar b = true
  · obtain ⟨t, ht⟩ := collapseWs_cons_ws rest b hb
    rw [ht]
    simp only [rbOf]
    rw [ws_not_word b hb, ws_not_word ' ' (by decide)]
  · obtain ⟨t, ht⟩ := collapseWs_cons_nonws rest b (by simpa using hb)
    rw [ht]
    rfl

/-- `collapseWs` preserves the absence of standalone non-whitespace `d`. -/
theorem nsB_collapseWs (d : Char) (hd : isSpaceChar d = false) (l : List Char) :
    ∀ p q, lbOf p = lbOf q → nsB d p l = true → nsB d q (collapseWs l) = true := by
  induction l with
  | nil => intro p q _ _; rfl
  | cons a rest ih =>
    intro p q hpq h
    simp only [nsB, Bool.and_eq_true] at h
    obtain ⟨hhead, htail⟩ := h
    cases rest with
    | nil =>
      by_cases ha : isSpaceChar a = true
      · simp only [collapseWs, ha, if_true]
        simp [nsB, (not_space_of_not_ws hd).symm]
      · simp only [collapseWs, ha, Bool.false_eq_true, if_false]
        simp only [nsB, Bool.and_eq_true]
        refine ⟨?_, trivial⟩
        rw [← hpq]
        exact hhead
    | cons b rest2 =>
      by_cases ha : isSpaceChar a = true
      · by_cases hb : isSpaceChar b = true
        · rw [show collapseWs (a :: b :: rest2) = collapseWs (b :: rest2) from by
            simp [collapseWs, ha, hb]]
          have hX := ih (some a) (some a) rfl htail
          obtain ⟨t, ht⟩ := collapseWs_cons_ws rest2 b hb
          rw [ht] at hX ⊢
          rw [nsB_prev_irrel d ' ' t (not_space_of_not_ws hd).symm q (some a)]
          exact hX
        · rw [show collapseWs (a :: b :: rest2) = ' ' :: collapseWs (b :: rest2) from by
            simp [collapseWs, ha, hb]]
          simp only [nsB, Bool.and_eq_true]
          constructor
          · simp [(not_space_of_not_ws hd).symm]
          · apply ih (some a) (some ' ') ?_ htail
            simp [lbOf, ws_not_word a ha, ws_not_word ' ' (by decide)]
      · rw [show collapseWs (a :: b :: rest2) = a :: collapseWs (b :: rest2) from by
          simp [collapseWs, ha]]
        simp only [nsB, Bool.and_eq_true]
        constructor
        · rw [rbOf_collapseWs b rest2, ← hpq]
          exact hhead
        · exact ih (some a) (some a) rfl htail

/-- Dropping leading whitespace preserves the absence of standalone
occurrences. -/
theorem nsB_dropWhile (d : Char) (l : List Char) (h : nsB d none l = true) :
    nsB d none (l.dropWhile isSpaceChar) = true := by
  induction l with
  | nil => exact h
  | cons c rest ih =>
    simp only [nsB, Bool.and_eq_true] at h
    by_cases hc : isSpaceChar c = true
    · rw [List.dropWhile_cons_of_pos (by simp [hc])]
      apply ih
      rw [nsB_congr d rest (some c) none (by simp [lbOf, ws_not_word c hc])] at h
      exact h.2
    · rw [List.dropWhile_cons_of_neg (by simp [hc])]
      simp only [nsB, Bool.and_eq_true]
      exact h

/-- Stripping trailing whitespace preserves the absence of standalone
occurrences. -/
theorem nsB_dropTrailingWs (d : Char) (l : List Char) :
    ∀ p, nsB d p l = true → nsB d p (dropTrailingWs l) = true := by
  induction l with
  | nil => intro p h; exact h
  | cons c rest ih =>
    intro p h
    simp only [nsB, Bool.and_eq_true] at h
    obtain ⟨hhead, htail⟩ := h
    rcases hr : dropTrailingWs rest with _ | ⟨r, rs⟩
    · rw [show dropTrailingWs (c :: rest) = if isSpaceChar c then [] else [c] from by
        simp [dropTrailingWs, hr]]
      by_cases hc : isSpaceChar c = true
      · simp [hc, nsB]
      · simp only [hc, Bool.false_eq_true, if_false]
        simp only [nsB, Bool.and_eq_true]
        refine ⟨?_, trivial⟩
        have hrb : rbOf rest = true := by
          cases rest with
          | nil => rfl
          | cons x tl =>
            simp only [rbOf]
            rw [ws_not_word x (dropTrailingWs_nil_allws _ hr x (by simp))]
            rfl
        rw [show rbOf ([] : List Char) = true from rfl]
        rw [hrb] at hhead
        exact hhead
    · rw [show dropTrailingWs (c :: rest) = c :: r :: rs from by
        simp [dropTrailingWs, hr]]
      simp only [nsB, Bool.and_eq_true]
      constructor
      · cases rest with
        | nil => cases hr
        | cons x tl =>
          have hrx : r = x := by
            rcases dropTrailingWs_head x tl with h0 | ⟨t, ht⟩
            · rw [h0] at hr; cases hr
            · rw [ht] at hr
              exact (List.cons.injEq _ _ _ _ ▸ hr).1.symm
          simp only [rbOf]
          rw [hrx]
          simpa only [rbOf] using hhead
      · have := ih (some c) htail
        rw [hr] at this
        simpa only [nsB, Bool.and_eq_true] using this

/-! ### Character membership lemmas and C9 -/

/-- Characters of a collapsed list are spaces or original characters. -/
theorem mem_collapseWs {c : Char} {l : List Char} (h : c ∈ collapseWs l) :
    c = ' ' ∨ c ∈ l := by
  induction l with
  | nil => cases h
  | cons a rest ih =>
    cases rest with
    | nil =>
      by_cases ha : isSpaceChar a = true
      · simp only [collapseWs, ha, if_true, List.mem_singleton] at h
        exact Or.inl h
      · simp only [collapseWs, ha, Bool.false_eq_true, if_false,
          List.mem_singleton] at h
        exact Or.inr (by simp [h])
    | cons b rest2 =>
      by_cases ha : isSpaceChar a = true
      · by_cases hb : isSpaceChar b = true
        · rw [show collapseWs (a :: b :: rest2) = collapseWs (b :: rest2) from by
            simp [collapseWs, ha, hb]] at h
          rcases ih h with h | h
          · exact Or.inl h
          · exact Or.inr (List.mem_cons_of_mem a h)
        · rw [show collapseWs (a :: b :: rest2) = ' ' :: collapseWs (b :: rest2) from by
            simp [collapseWs, ha, hb]] at h
          rcases List.mem_cons.mp h with rfl | h2
          · exact Or.inl rfl
          · rcases ih h2 with h | h
            · exact Or.inl h
            · exact Or.inr (List.mem_cons_of_mem a h)
      · rw [show collapseWs (a :: b :: rest2) = a :: collapseWs (b :: rest2) from by
          simp [collapseWs, ha]] at h
        rcases List.mem_cons.mp h with rfl | h2
        · exact Or.inr (List.mem_cons_self _ _)
        · rcases ih h2 with h | h
          · exact Or.inl h
          · exact Or.inr (List.mem_cons_of_mem a h)

/-- Characters after `fixStandalone` are the replacement or original
characters. -/
theorem mem_fixStandalone {c d r : Char} {p : Option Char} {l : List Char}
    (h : c ∈ fixStandalone d r p l) : c = r ∨ c ∈ l := by
  induction l generalizing p with
  | nil => cases h
  | cons a rest ih =>
    rw [show fixStandalone d r p (a :: rest) =
      (if decide (a = d) && lbOf p && rbOf rest then r else a) ::
        fixStandalone d r (some a) rest from rfl] at h
    rcases List.mem_cons.mp h with h1 | h2
    · by_cases hc : (decide (a = d) && lbOf p && rbOf rest) = true
      · rw [if_pos hc] at h1
        exact Or.inl h1
      · rw [if_neg hc] at h1
        exact Or.inr (by simp [h1])
    · rcases ih h2 with h | h
      · exact Or.inl h
      · exact Or.inr (List.mem_cons_of_mem a h)

/-- Characters survive `dropTrailingWs` membership-wise. -/
theorem mem_dropTrailingWs {c : Char} {l : List Char} (h : c ∈ dropTrailingWs l) :
    c ∈ l := by
  induction l with
  | nil => cases h
  | cons x xs ih =>
    rcases hr : dropTrailingWs xs with _ | ⟨r, rs⟩
    · rw [show dropTrailingWs (x :: xs) = if isSpaceChar x then [] else [x] from by
        simp [dropTrailingWs, hr]] at h
      by_cases hx : isSpaceChar x = true
      · rw [if_pos hx] at h
        cases h
      · rw [if_neg hx] at h
        rw [List.mem_singleton] at h
        rw [h]
        exact List.mem_cons_self x xs
    · rw [show dropTrailingWs (x :: xs) = x :: r :: rs from by
        simp [dropTrailingWs, hr]] at h
      rcases List.mem_cons.mp h with rfl | h2
      · exact List.mem_cons_self _ _
      · refine List.mem_cons_of_mem x (ih ?_)
        rw [hr]
        exact h2

/-- Every character of `replaceDisallowed` output is in the allow-set. -/
theorem allowed_replaceDisallowed {c : Char} {l : List Char}
    (h : c ∈ replaceDisallowed l) : isAllowedChar c = true := by
  obtain ⟨a, _, rfl⟩ := List.mem_map.mp h
  by_cases ha : isAllowedChar a = true
  · simp [ha]
  · simp only [ha, Bool.false_eq_true, if_false]
    decide

/-- `replaceDisallowed` is the identity on allow-set characters. -/
theorem replaceDisallowed_id {l : List Char}
    (h : ∀ c ∈ l, isAllowedChar c = true) : replaceDisallowed l = l := by
  induction l with
  | nil => rfl
  | cons a rest ih =>
    have ha := h a (List.mem_cons_self a rest)
    have hrest : ∀ c ∈ rest, isAllowedChar c = true :=
      fun c hc => h c (List.mem_cons_of_mem a hc)
    show (if isAllowedChar a then a else ' ') :: replaceDisallowed rest = a :: rest
    rw [if_pos ha, ih hrest]

/-- Every character of `cleanTextL` output is in the allow-set. -/
theorem clean_allowed {l : List Char} {c : Char} (hc : c ∈ cleanTextL l) :
    isAllowedChar c = true := by
  unfold cleanTextL at hc
  by_cases he : l.isEmpty
  · rw [if_pos he] at hc
    cases hc
  · rw [if_neg he] at hc
    unfold stripChars fixCommonOcrErrors at hc
    have h1 := (List.dropWhile_sublist isSpaceChar (l :=
      collapseWs (fixStandalone '1' 'I' none
        (fixStandalone '0' 'O' none (replaceDisallowed (collapseWs l)))))).subset
      (mem_dropTrailingWs hc)
    rcases mem_collapseWs h1 with rfl | h2
    · decide
    · rcases mem_fixStandalone h2 with rfl | h3
      · decide
      · rcases mem_fixStandalone h3 with rfl | h4
        · decide
        · exact allowed_replaceDisallowed h4

/-- Idempotence of `cleanTextL`. -/
theorem cleanTextL_idem (l : List Char) : cleanTextL (cleanTextL l) = cleanTextL l := by
  by_cases he : l.isEmpty
  · rw [show cleanTextL l = [] from by unfold cleanTextL; rw [if_pos he]]
    rfl
  · set y := cleanTextL l with hy
    by_cases hye : y.isEmpty
    · unfold cleanTextL
      rw [if_pos hye]
      exact (List.isEmpty_iff.mp hye).symm
    · have hyw : y = stripChars (collapseWs (fixStandalone '1' 'I' none
          (fixStandalone '0' 'O' none (replaceDisallowed (collapseWs l))))) := by
        rw [hy]
        unfold cleanTextL
        rw [if_neg he]
        rfl
      have hwsy : wsNormB y = true := by
        rw [hyw]
        exact stripChars_wsNorm _ (collapseWs_wsNorm _)
      have hall : ∀ c ∈ y, isAllowedChar c = true := fun c hc =>
        clean_allowed (l := l) (hy ▸ hc)
      have hz0 : nsB '0' none (fixStandalone '0' 'O' none
          (replaceDisallowed (collapseWs l))) = true :=
        nsB_fixStandalone '0' 'O' (by decide) (by decide) (by decide) _ none none rfl
      have hz1 : nsB '0' none (fixStandalone '1' 'I' none (fixStandalone '0' 'O' none
          (replaceDisallowed (collapseWs l)))) = true :=
        nsB_fixOther '0' '1' 'I' (by decide) (by decide) (by decide) _ none none rfl hz0
      have hz2 : nsB '0' none (collapseWs (fixStandalone '1' 'I' none
          (fixStandalone '0' 'O' none (replaceDisallowed (collapseWs l))))) = true :=
        nsB_collapseWs '0' (by decide) _ none none rfl hz1
      have hns0 : nsB '0' none y = true := by
        rw [hyw]
        unfold stripChars
        exact nsB_dropTrailingWs '0' _ none (nsB_dropWhile '0' _ hz2)
      have hw1 : nsB '1' none (fixStandalone '1' 'I' none (fixStandalone '0' 'O' none
          (replaceDisallowed (collapseWs l)))) = true :=
        nsB_fixStandalone '1' 'I' (by decide) (by decide) (by decide) _ none none rfl
      have hw2 : nsB '1' none (collapseWs (fixStandalone '1' 'I' none
          (fixStandalone '0' 'O' none (replaceDisallowed (collapseWs l))))) = true :=
        nsB_collapseWs '1' (by decide) _ none none rfl hw1
      have hns1 : nsB '1' none y = true := by
        rw [hyw]
        unfold stripChars
        exact nsB_dropTrailingWs '1' _ none (nsB_dropWhile '1' _ hw2)
      have hstrip : stripChars y = y := by
        rw [hyw]
        exact stripChars_idem _
      unfold cleanTextL
      rw [if_neg hye]
      unfold fixCommonOcrErrors
      rw [collapseWs_id_of_wsNorm y hwsy]
      rw [replaceDisallowed_id hall]
      rw [fixStandalone_id '0' 'O' y none hns0]
      rw [fixStandalone_id '1' 'I' y none hns1]
      rw [collapseWs_id_of_wsNorm y hwsy]
      exact hstrip

/-- C9: the text-cleaning operation is idempotent: for every input string,
cleaning twice equals cleaning once. -/
theorem C9_clean_idempotent (s : String) :
    TextProcessor.clean_text (TextProcessor.clean_text s) = TextProcessor.clean_text s := by
  unfold TextProcessor.clean_text
  exact congrArg String.mk (cleanTextL_idem s.data)

/-! ### Splitter lemmas (towards C8) -/

/-- `intercalate` over a two-or-more-element list. -/
theorem intercalate_cons₂ (sep a b : List Char) (t : List (List Char)) :
    List.intercalate sep (a :: b :: t) = a ++ sep ++ List.intercalate sep (b :: t) := by
  unfold List.intercalate
  rw [List.intersperse_cons_cons]
  simp [List.flatten_cons]

/-- `intercalate` over a one-element list. -/
theorem intercalate_one (sep a : List Char) : List.intercalate sep [a] = a := by
  simp [List.intercalate]

/-- Appending one element to a non-empty `intercalate`. -/
theorem intercalate_append_one (sep b : List Char) (Y : List (List Char)) (hY : Y ≠ []) :
    List.intercalate sep (Y ++ [b]) = List.intercalate sep Y ++ sep ++ b := by
  induction Y with
  | nil => exact absurd rfl hY
  | cons y Y' ih =>
    cases Y' with
    | nil =>
      rw [List.cons_append, List.nil_append, intercalate_cons₂, intercalate_one,
        intercalate_one]
    | cons z Z =>
      have ih' := ih (by simp)
      rw [show ((z :: Z) ++ [b] : List (List Char)) = z :: (Z ++ [b]) from rfl] at ih'
      rw [show ((y :: z :: Z) ++ [b] : List (List Char)) = y :: z :: (Z ++ [b]) from rfl]
      rw [intercalate_cons₂ sep y z (Z ++ [b]), ih', intercalate_cons₂ sep y z Z]
      simp [List.append_assoc]

/-- Extending the last element of an `intercalate`. -/
theorem intercalate_last_ext (sep a b : List Char) (Y : List (List Char)) :
    List.intercalate sep (Y ++ [a ++ b]) = List.intercalate sep (Y ++ [a]) ++ b := by
  cases Y with
  | nil => rw [List.nil_append, List.nil_append, intercalate_one, intercalate_one]
  | cons y Y' =>
    rw [intercalate_append_one sep (a ++ b) (y :: Y') (by simp),
      intercalate_append_one sep a (y :: Y') (by simp)]
    simp [List.append_assoc]

/-- `intercalate` with the empty separator is `flatten`. -/
theorem intercalate_nil_sep (l : List (List Char)) :
    List.intercalate ([] : List Char) l = l.flatten := by
  induction l with
  | nil => rfl
  | cons a t ih =>
    cases t with
    | nil => rw [intercalate_one]; simp
    | cons b t2 =>
      rw [intercalate_cons₂, ih]
      simp

/-- Flattening singleton lists recovers the original list. -/
theorem flatten_map_singleton (w : List Char) :
    (w.map (fun c => [c])).flatten = w := by
  induction w with
  | nil => rfl
  | cons c rest ih => simp [ih]

/-- A space-joined non-empty list of non-empty words is non-empty. -/
theorem intercalate_words_ne_nil (g : List (List Char)) (hg : g ≠ [])
    (hw : ∀ v ∈ g, v ≠ []) : List.intercalate [' '] g ≠ [] := by
  cases g with
  | nil => exact absurd rfl hg
  | cons v g' =>
    have hv : v ≠ [] := hw v (List.mem_cons_self _ _)
    cases g' with
    | nil => rw [intercalate_one]; exact hv
    | cons u t =>
      rw [intercalate_cons₂]
      simp [hv]

/-- A space-join of non-empty space-free words starts with a non-space
character. -/
theorem intercalate_words_head (g : List (List Char)) (hg : g ≠ [])
    (hw : ∀ v ∈ g, v ≠ [] ∧ ∀ c ∈ v, isSpaceChar c = false) :
    ∃ c t, List.intercalate [' '] g = c :: t ∧ isSpaceChar c = false := by
  cases g with
  | nil => exact absurd rfl hg
  | cons v g' =>
    obtain ⟨hv, hvf⟩ := hw v (List.mem_cons_self _ _)
    obtain ⟨c, v', rfl⟩ : ∃ c v', v = c :: v' := by
      cases v with
      | nil => exact absurd rfl hv
      | cons c v' => exact ⟨c, v', rfl⟩
    have hc : isSpaceChar c = false := hvf c (List.mem_cons_self _ _)
    cases g' with
    | nil => exact ⟨c, v', by rw [intercalate_one], hc⟩
    | cons u t =>
      refine ⟨c, v' ++ [' '] ++ List.intercalate [' '] (u :: t), ?_, hc⟩
      rw [intercalate_cons₂]
      simp

/-- A space-join of non-empty space-free words ends with a non-space
character. -/
theorem intercalate_words_last (g : List (List Char)) (hg : g ≠ [])
    (hw : ∀ v ∈ g, v ≠ [] ∧ ∀ c ∈ v, isSpaceChar c = false) :
    ∃ Y c, List.intercalate [' '] g = Y ++ [c] ∧ isSpaceChar c = false := by
  induction g with
  | nil => exact absurd rfl hg
  | cons v g' ih =>
    obtain ⟨hv, hvf⟩ := hw v (List.mem_cons_self _ _)
    cases g' with
    | nil =>
      refine ⟨v.dropLast, v.getLast hv, ?_, ?_⟩
      · rw [intercalate_one, List.dropLast_append_getLast hv]
      · exact hvf _ (List.getLast_mem hv)
    | cons u t =>
      obtain ⟨Y, c, hYc, hc⟩ := ih (by simp)
        (fun w hwmem => hw w (List.mem_cons_of_mem v hwmem))
      refine ⟨v ++ ' ' :: Y, c, ?_, hc⟩
      rw [intercalate_cons₂, hYc]
      simp

/-- Stripping keeps a list that ends with a non-space character. -/
theorem dropTrailingWs_append_nonws (Y : List Char) (c : Char)
    (hc : isSpaceChar c = false) : dropTrailingWs (Y ++ [c]) = Y ++ [c] := by
  induction Y with
  | nil => simp [dropTrailingWs, hc]
  | cons x X ih =>
    rw [List.cons_append]
    rw [show dropTrailingWs (x :: (X ++ [c])) =
        (match dropTrailingWs (X ++ [c]) with
         | [] => if isSpaceChar x then [] else [x]
         | r => x :: r) from rfl]
    rw [ih]
    rcases hX : X ++ [c] with _ | ⟨r, rs⟩
    · exact absurd hX (by simp)
    · rfl

/-- `stripChars` is the identity on a space-join of non-empty space-free
words. -/
theorem stripChars_ic_words (g : List (List Char)) (hg : g ≠ [])
    (hw : ∀ v ∈ g, v ≠ [] ∧ ∀ c ∈ v, isSpaceChar c = false) :
    stripChars (List.intercalate [' '] g) = List.intercalate [' '] g := by
  obtain ⟨c, t, hct, hc⟩ := intercalate_words_head g hg hw
  obtain ⟨Y, d, hYd, hd⟩ := intercalate_words_last g hg hw
  unfold stripChars
  rw [hct, List.dropWhile_cons_of_neg (by simp [hc]), ← hct, hYd]
  exact dropTrailingWs_append_nonws Y d hd

/-- `stripChars` discards a leading space. -/
theorem stripChars_cons_space (X : List Char) :
    stripChars (' ' :: X) = stripChars X := by
  unfold stripChars
  rw [List.dropWhile_cons_of_pos (by decide)]

/-- A matched separator's first character occurs in the text. -/
theorem containsSeq_head_mem {s0 : Char} {srest t : List Char}
    (h : containsSeq (s0 :: srest) t = true) : s0 ∈ t := by
  induction t with
  | nil => simp [containsSeq] at h
  | cons c rest ih =>
    simp only [containsSeq, Bool.or_eq_true] at h
    rcases h with h | h
    · rw [List.isPrefixOf_cons₂] at h
      simp only [Bool.and_eq_true, beq_iff_eq] at h
      exact h.1 ▸ List.mem_cons_self _ _
    · exact List.mem_cons_of_mem c (ih h)

/-- A singleton separator is found whenever its character occurs. -/
theorem containsSeq_singleton_of_mem {c : Char} {t : List Char} (h : c ∈ t) :
    containsSeq [c] t = true := by
  induction t with
  | nil => cases h
  | cons x rest ih =>
    simp only [containsSeq, Bool.or_eq_true]
    rcases List.mem_cons.mp h with rfl | h2
    · left
      rw [List.isPrefixOf_cons₂]
      simp [List.isPrefixOf]
    · exact Or.inr (ih h2)

/-- On newline-free space-free text the splitter reaches the hard-cut
separator. -/
theorem pickSeparator_hard_cut (text : List Char)
    (hn : '\n' ∉ text) (hs : ' ' ∉ text) :
    pickSeparator separatorsList text = ([], []) := by
  have h1 : containsSeq ['\n', '\n'] text = false := by
    by_cases h : containsSeq ['\n', '\n'] text = true
    · exact absurd (containsSeq_head_mem h) hn
    · exact Bool.not_eq_true _ ▸ h
  have h2 : containsSeq ['\n'] text = false := by
    by_cases h : containsSeq ['\n'] text = true
    · exact absurd (containsSeq_head_mem h) hn
    · exact Bool.not_eq_true _ ▸ h
  have h3 : containsSeq [' '] text = false := by
    by_cases h : containsSeq [' '] text = true
    · exact absurd (containsSeq_head_mem h) hs
    · exact Bool.not_eq_true _ ▸ h
  simp [separatorsList, pickSeparator, h1, h2, h3]

/-- On newline-free text containing a space the splitter picks the space
separator, leaving only the hard cut. -/
theorem pickSeparator_space (text : List Char)
    (hn : '\n' ∉ text) (hs : ' ' ∈ text) :
    pickSeparator separatorsList text = ([' '], [[]]) := by
  have h1 : containsSeq ['\n', '\n'] text = false := by
    by_cases h : containsSeq ['\n', '\n'] text = true
    · exact absurd (containsSeq_head_mem h) hn
    · exact Bool.not_eq_true _ ▸ h
  have h2 : containsSeq ['\n'] text = false := by
    by_cases h : containsSeq ['\n'] text = true
    · exact absurd (containsSeq_head_mem h) hn
    · exact Bool.not_eq_true _ ▸ h
  have h3 : containsSeq [' '] text = true := containsSeq_singleton_of_mem hs
  simp [separatorsList, pickSeparator, h1, h2, h3]

/-- A character of a space-join is a space or a word character. -/
theorem mem_intercalate_space {c : Char} {ws : List (List Char)}
    (h : c ∈ List.intercalate [' '] ws) : c = ' ' ∨ ∃ w ∈ ws, c ∈ w := by
  induction ws with
  | nil => simp [List.intercalate] at h
  | cons w ws' ih =>
    cases ws' with
    | nil =>
      rw [intercalate_one] at h
      exact Or.inr ⟨w, List.mem_cons_self _ _, h⟩
    | cons v t =>
      rw [intercalate_cons₂] at h
      rcases List.mem_append.mp h with h1 | h2
      · rcases List.mem_append.mp h1 with h3 | h4
        · exact Or.inr ⟨w, List.mem_cons_self _ _, h3⟩
        · exact Or.inl (List.mem_singleton.mp h4)
      · rcases ih h2 with h5 | ⟨u, hu, hcu⟩
        · exact Or.inl h5
        · exact Or.inr ⟨u, List.mem_cons_of_mem w hu, hcu⟩

/-- Scanning a space-free word moves it into the accumulator. -/
theorem splitPiecesFuel_word (w : List Char) :
    ∀ (rest acc : List Char) (fuel : Nat),
      (∀ c ∈ w, c ≠ ' ') → w.length + rest.length ≤ fuel →
      splitPiecesFuel ' ' [] fuel (w ++ rest) acc =
        splitPiecesFuel ' ' [] (fuel - w.length) rest (w.reverse ++ acc) := by
  induction w with
  | nil =>
    intro rest acc fuel _ _
    simp
  | cons c w' ih =>
    intro rest acc fuel hw hf
    obtain ⟨f, rfl⟩ : ∃ f, fuel = f + 1 := by
      cases fuel with
      | zero => simp at hf
      | succ f => exact ⟨f, rfl⟩
    rw [List.cons_append]
    rw [show splitPiecesFuel ' ' [] (f + 1) (c :: (w' ++ rest)) acc =
        (if ([' ']).isPrefixOf (c :: (w' ++ rest)) then
          acc.reverse :: splitPiecesFuel ' ' [] f ((w' ++ rest).drop 0) []
        else splitPiecesFuel ' ' [] f (w' ++ rest) (c :: acc)) from rfl]
    rw [if_neg (by
      rw [List.isPrefixOf_cons₂]
      simp [(hw c (List.mem_cons_self _ _)).symm])]
    rw [ih rest (c :: acc) f
      (fun x hx => hw x (List.mem_cons_of_mem c hx))
      (by simp at hf; omega)]
    have e1 : f - w'.length = f + 1 - (c :: w').length := by
      simp
    have e2 : w'.reverse ++ (c :: acc) = (c :: w').reverse ++ acc := by
      simp
    rw [e1, e2]

/-- Scanning at a space emits the accumulated piece. -/
theorem splitPiecesFuel_space (t acc : List Char) (f : Nat) :
    splitPiecesFuel ' ' [] (f + 1) (' ' :: t) acc =
      acc.reverse :: splitPiecesFuel ' ' [] f t [] := by
  rw [show splitPiecesFuel ' ' [] (f + 1) (' ' :: t) acc =
      (if ([' ']).isPrefixOf (' ' :: t) then
        acc.reverse :: splitPiecesFuel ' ' [] f (t.drop 0) []
      else splitPiecesFuel ' ' [] f t (' ' :: acc)) from rfl]
  rw [if_pos (by rw [List.isPrefixOf_cons₂]; simp [List.isPrefixOf])]
  rw [List.drop_zero]

/-- Splitting a space-join of non-empty space-free words on the space
separator recovers the words. -/
theorem splitPiecesFuel_words (ws' : List (List Char)) :
    ∀ (w acc : List Char) (fuel : Nat),
      (∀ v ∈ w :: ws', v ≠ [] ∧ ∀ c ∈ v, isSpaceChar c = false) →
      (List.intercalate [' '] (w :: ws')).length ≤ fuel →
      splitPiecesFuel ' ' [] fuel (List.intercalate [' '] (w :: ws')) acc =
        (acc.reverse ++ w) :: ws' := by
  induction ws' with
  | nil =>
    intro w acc fuel hws hf
    rw [intercalate_one] at hf ⊢
    have hw : ∀ c ∈ w, c ≠ ' ' := fun c hc =>
      not_space_of_not_ws ((hws w (List.mem_cons_self _ _)).2 c hc)
    have h1 := splitPiecesFuel_word w [] acc fuel hw (by simpa using hf)
    rw [List.append_nil] at h1
    rw [h1]
    rw [show splitPiecesFuel ' ' [] (fuel - w.length) [] (w.reverse ++ acc) =
        [(w.reverse ++ acc).reverse] from by cases (fuel - w.length) <;> rfl]
    simp
  | cons v ws'' ih =>
    intro w acc fuel hws hf
    rw [intercalate_cons₂] at hf ⊢
    have hw : ∀ c ∈ w, c ≠ ' ' := fun c hc =>
      not_space_of_not_ws ((hws w (List.mem_cons_self _ _)).2 c hc)
    rw [show w ++ [' '] ++ List.intercalate [' '] (v :: ws'') =
        w ++ (' ' :: List.intercalate [' '] (v :: ws'')) from by simp]
    rw [splitPiecesFuel_word w (' ' :: List.intercalate [' '] (v :: ws'')) acc fuel hw
      (by simp [List.length_append] at hf ⊢; omega)]
    obtain ⟨f, hfeq⟩ : ∃ f, fuel - w.length = f + 1 := by
      have : 1 ≤ fuel - w.length := by
        simp [List.length_append] at hf
        omega
      exact ⟨fuel - w.length - 1, by omega⟩
    rw [hfeq, splitPiecesFuel_space]
    rw [ih v [] (f)
      (fun u hu => hws u (List.mem_cons_of_mem w hu))
      (by simp [List.length_append] at hf; omega)]
    simp

/-- `splitPieces` on a space-join of non-empty space-free words. -/
theorem splitPieces_words (w : List Char) (ws' : List (List Char))
    (hws : ∀ v ∈ w :: ws', v ≠ [] ∧ ∀ c ∈ v, isSpaceChar c = false) :
    splitPieces ' ' [] (List.intercalate [' '] (w :: ws')) [] = w :: ws' := by
  unfold splitPieces
  rw [splitPiecesFuel_words ws' w [] _ hws (le_refl _)]
  simp

/-- `splitWithSepKeep` with the empty separator lists the characters. -/
theorem splitWithSepKeep_nil_eq (text : List Char) :
    splitWithSepKeep [] text = text.map (fun c => [c]) := rfl

/-- On a space-join of non-empty space-free words, `keep_separator=True`
splitting produces the first word and the remaining words each prefixed
with their separating space. -/
theorem splitWithSepKeep_space (w : List Char) (ws' : List (List Char))
    (hws : ∀ v ∈ w :: ws', v ≠ [] ∧ ∀ c ∈ v, isSpaceChar c = false) :
    splitWithSepKeep [' '] (List.intercalate [' '] (w :: ws')) =
      w :: ws'.map (fun v => ' ' :: v) := by
  rw [show splitWithSepKeep [' '] (List.intercalate [' '] (w :: ws')) =
      (match splitPieces ' ' [] (List.intercalate [' '] (w :: ws')) [] with
       | [] => []
       | t0 :: ts => (t0 :: ts.map (fun t => [' '] ++ t)).filter
           (fun t => !t.isEmpty)) from rfl]
  rw [splitPieces_words w ws' hws]
  show (w :: ws'.map (fun t => [' '] ++ t)).filter (fun t => !t.isEmpty) =
    w :: ws'.map (fun v => ' ' :: v)
  rw [List.filter_eq_self.mpr ?_]
  · rfl
  · intro a ha
    rcases List.mem_cons.mp ha with rfl | h2
    · simp [List.isEmpty_iff, (hws a (List.mem_cons_self _ _)).1]
    · obtain ⟨v, _, rfl⟩ := List.mem_map.mp h2
      simp [List.isEmpty_iff]

/-- Unfolding equation for `goodLoop` on the empty split list. -/
theorem goodLoop_nil_eq (cs : Nat) (M : List (List Char) → List (List Char))
    (H : List Char → List (List Char)) (g : List (List Char)) :
    goodLoop cs M H [] g = if g.length > 0 then M g else [] := rfl

/-- Unfolding equation for `goodLoop` on a cons. -/
theorem goodLoop_cons_eq (cs : Nat) (M : List (List Char) → List (List Char))
    (H : List Char → List (List Char)) (s : List Char) (rest g : List (List Char)) :
    goodLoop cs M H (s :: rest) g =
      if s.length < cs then goodLoop cs M H rest (g ++ [s])
      else (if g.length > 0 then M g else []) ++ H s ++ goodLoop cs M H rest [] := rfl

/-- When every split is shorter than the chunk size, the accumulation loop
just merges all of them (and `handleBig` is never called). -/
theorem goodLoop_all_good (cs : Nat) (M : List (List Char) → List (List Char))
    (H : List Char → List (List Char)) :
    ∀ (splits g : List (List Char)), (∀ s ∈ splits, s.length < cs) →
      goodLoop cs M H splits g =
        if (g ++ splits).length > 0 then M (g ++ splits) else [] := by
  intro splits
  induction splits with
  | nil =>
    intro g _
    rw [goodLoop_nil_eq, List.append_nil]
  | cons s rest ih =>
    intro g hs
    rw [goodLoop_cons_eq, if_pos (hs s (List.mem_cons_self _ _)),
      ih (g ++ [s]) (fun x hx => hs x (List.mem_cons_of_mem s hx)),
      List.append_assoc]
    rfl

/-- Unfolding equation for `mergePop` on a cons. -/
theorem mergePop_cons_eq (cs ov sepLen dLen : Nat) (d0 : List Char)
    (cur : List (List Char)) (total : Int) :
    mergePop cs ov sepLen dLen (d0 :: cur) total =
      if total > (ov : Int) ∨
          (total + (dLen : Int) + (if cur.length > 0 then (sepLen : Int) else 0) > (cs : Int)
            ∧ total > 0) then
        mergePop cs ov sepLen dLen cur
          (total - ((d0.length : Int) + (if cur.length > 0 then (sepLen : Int) else 0)))
      else (d0 :: cur, total) := rfl

/-- With overlap 0 and an empty merge separator, the pop loop empties the
current document entirely (every member is non-empty, so the running total
stays positive until the list is empty). -/
theorem mergePop_zero (cs dLen : Nat) :
    ∀ (cur : List (List Char)) (total : Int), (∀ s ∈ cur, s ≠ []) →
      total = ((cur.map List.length).sum : Int) →
      mergePop cs 0 0 dLen cur total = ([], 0) := by
  intro cur
  induction cur with
  | nil =>
    intro total _ ht
    simp at ht
    subst ht
    rfl
  | cons d0 cur' ih =>
    intro total h ht
    have hd0 : d0 ≠ [] := h d0 (List.mem_cons_self _ _)
    have hpos : 0 < d0.length := List.length_pos.mpr hd0
    rw [mergePop_cons_eq]
    rw [if_pos (Or.inl (by
      rw [ht]
      simp only [List.map_cons, List.sum_cons]
      omega))]
    rw [ih _ (fun s hs => h s (List.mem_cons_of_mem d0 hs)) ?_]
    rw [ht]
    simp

/-- Unfolding equation for `mergeLoop` on the empty split list. -/
theorem mergeLoop_nil_eq (cs ov : Nat) (sep : List Char) (docs cur : List (List Char))
    (total : Int) :
    mergeLoop cs ov sep [] docs cur total = docs ++ (joinDocs sep cur).toList := rfl

/-- Unfolding equation for `mergeLoop` on a cons. -/
theorem mergeLoop_cons_eq (cs ov : Nat) (sep : List Char) (d : List Char)
    (rest docs cur : List (List Char)) (total : Int) :
    mergeLoop cs ov sep (d :: rest) docs cur total =
      if total + (d.length : Int) + (if cur.length > 0 then (sep.length : Int) else 0) >
          (cs : Int) ∧ cur.length > 0 then
        mergeLoop cs ov sep rest (docs ++ (joinDocs sep cur).toList)
          ((mergePop cs ov sep.length d.length cur total).1 ++ [d])
          ((mergePop cs ov sep.length d.length cur total).2 + (d.length : Int) +
            (if (mergePop cs ov sep.length d.length cur total).1.length > 0 then
              (sep.length : Int) else 0))
      else
        mergeLoop cs ov sep rest docs (cur ++ [d])
          (total + (d.length : Int) + (if cur.length > 0 then (sep.length : Int) else 0)) :=
  rfl

/-- If all the splits fit into one chunk, the merge loop emits a single
joined document. -/
theorem mergeLoop_fits (cs : Nat) :
    ∀ (splits docs cur : List (List Char)) (total : Int),
      total = ((cur.map List.length).sum : Int) →
      (cur.map List.length).sum + (splits.map List.length).sum ≤ cs →
      mergeLoop cs 0 [] splits docs cur total =
        docs ++ (joinDocs [] (cur ++ splits)).toList := by
  intro splits
  induction splits with
  | nil =>
    intro docs cur total _ _
    rw [mergeLoop_nil_eq, List.append_nil]
  | cons d rest ih =>
    intro docs cur total h1 h2
    rw [mergeLoop_cons_eq]
    rw [if_neg ?_]
    · rw [ih docs (cur ++ [d]) _ ?_ ?_]
      · rw [List.append_assoc]
        rfl
      · rw [h1]
        simp only [List.map_append, List.map_cons, List.map_nil, List.sum_append,
          List.sum_cons, List.sum_nil, List.length_nil, Nat.cast_zero, ite_self,
          add_zero]
        omega
      · simp only [List.map_append, List.sum_append, List.map_cons, List.sum_cons,
          List.map_nil, List.sum_nil] at h2 ⊢
        omega
    · rintro ⟨hgt, _⟩
      rw [h1] at hgt
      simp only [List.map_cons, List.sum_cons] at h2
      simp only [List.length_nil, Nat.cast_zero, ite_self, add_zero] at hgt
      omega

/-- A space-join of words equals the head word followed by the flattened
space-prefixed tail words. -/
theorem intercalate_space_eq_head_flatten (ws' : List (List Char)) :
    ∀ (w : List Char),
      List.intercalate [' '] (w :: ws') = w ++ (ws'.map (fun v => ' ' :: v)).flatten := by
  induction ws' with
  | nil =>
    intro w
    rw [intercalate_one]
    simp
  | cons v t ih =>
    intro w
    rw [intercalate_cons₂, ih v]
    simp

/-- Under the run invariant, joining the current document yields the
space-join of its accumulated words. -/
theorem joinDocs_inv (g cur : List (List Char)) (hg : g ≠ [])
    (hgw : ∀ v ∈ g, v ≠ [] ∧ ∀ c ∈ v, isSpaceChar c = false)
    (hinv : cur.flatten = List.intercalate [' '] g ∨
      cur.flatten = ' ' :: List.intercalate [' '] g) :
    joinDocs [] cur = some (List.intercalate [' '] g) := by
  have h1 : stripChars (List.intercalate ([] : List Char) cur) =
      List.intercalate [' '] g := by
    rw [intercalate_nil_sep]
    rcases hinv with hB | hC
    · rw [hB]
      exact stripChars_ic_words g hg hgw
    · rw [hC, stripChars_cons_space]
      exact stripChars_ic_words g hg hgw
  rw [show joinDocs ([] : List Char) cur =
      (if (stripChars (List.intercalate ([] : List Char) cur)).isEmpty then none
       else some (stripChars (List.intercalate ([] : List Char) cur))) from rfl]
  rw [h1, if_neg (by
    simp only [List.isEmpty_iff]
    exact intercalate_words_ne_nil g hg (fun v hv => (hgw v hv).1))]

/-- The run invariant of the merge loop over space-prefixed word splits with
overlap 0: the output, space-joined, is the already-emitted documents, the
current accumulated words, and the raw remaining splits. -/
theorem mergeLoop_run (cs : Nat) (tail : List (List Char)) :
    ∀ (docs cur g : List (List Char)) (total : Int),
      (∀ s ∈ tail, ∃ v, s = ' ' :: v ∧ v ≠ [] ∧ (∀ c ∈ v, isSpaceChar c = false) ∧
        s.length < cs) →
      g ≠ [] → (∀ v ∈ g, v ≠ [] ∧ ∀ c ∈ v, isSpaceChar c = false) →
      cur ≠ [] → (∀ s ∈ cur, s ≠ []) →
      (cur.flatten = List.intercalate [' '] g ∨
        (docs ≠ [] ∧ cur.flatten = ' ' :: List.intercalate [' '] g)) →
      total = (cur.flatten.length : Int) →
      List.intercalate [' '] (mergeLoop cs 0 [] tail docs cur total) =
        List.intercalate [' '] (docs ++ [List.intercalate [' '] g]) ++ tail.flatten := by
  induction tail with
  | nil =>
    intro docs cur g total _ hg hgw _ _ hinv _
    rw [mergeLoop_nil_eq,
      joinDocs_inv g cur hg hgw (hinv.imp id And.right)]
    simp
  | cons s tail' ih =>
    intro docs cur g total htail hg hgw hcur hmem hinv htot
    obtain ⟨v, rfl, hv, hvf, hslen⟩ := htail s (List.mem_cons_self _ _)
    have htail' : ∀ s ∈ tail', ∃ u, s = ' ' :: u ∧ u ≠ [] ∧
        (∀ c ∈ u, isSpaceChar c = false) ∧ s.length < cs :=
      fun x hx => htail x (List.mem_cons_of_mem _ hx)
    have hcpos : 0 < cur.length := List.length_pos.mpr hcur
    have hicv : List.intercalate [' '] (g ++ [v]) =
        List.intercalate [' '] g ++ (' ' :: v) := by
      rw [intercalate_append_one [' '] v g hg]
      simp
    rw [mergeLoop_cons_eq]
    by_cases hov : cur.flatten.length + (v.length + 1) ≤ cs
    · rw [if_neg (by
        rintro ⟨hgt, _⟩
        rw [htot] at hgt
        simp only [List.length_cons, List.length_nil, Nat.cast_zero, ite_self,
          add_zero] at hgt
        omega)]
      rw [ih docs (cur ++ [' ' :: v]) (g ++ [v]) _ htail'
        (by simp)
        (by
          intro u hu
          rcases List.mem_append.mp hu with h2 | h2
          · exact hgw u h2
          · rw [List.mem_singleton] at h2
            subst h2
            exact ⟨hv, hvf⟩)
        (by simp)
        (by
          intro x hx
          rcases List.mem_append.mp hx with h2 | h2
          · exact hmem x h2
          · rw [List.mem_singleton] at h2
            subst h2
            simp)
        (by
          rcases hinv with hB | ⟨hd, hC⟩
          · left
            rw [List.flatten_append, hB, hicv]
            simp
          · right
            refine ⟨hd, ?_⟩
            rw [List.flatten_append, hC, hicv]
            simp)
        (by
          rw [htot, List.flatten_append]
          simp only [List.flatten_cons, List.flatten_nil, List.append_nil,
            List.length_append, List.length_cons, List.length_nil, Nat.cast_zero,
            ite_self, add_zero]
          omega)]
      rw [hicv, intercalate_last_ext]
      simp
    · rw [if_pos ⟨by
        rw [htot]
        simp only [List.length_cons, List.length_nil, Nat.cast_zero, ite_self,
          add_zero]
        omega, hcpos⟩]
      have hjd : joinDocs ([] : List Char) cur = some (List.intercalate [' '] g) :=
        joinDocs_inv g cur hg hgw (hinv.imp id And.right)
      have hpop : mergePop cs 0 ([] : List Char).length (' ' :: v).length cur total =
          ([], 0) := by
        exact mergePop_zero cs (' ' :: v).length cur total hmem
          (by rw [htot, List.length_flatten])
      rw [hjd, hpop]
      show List.intercalate [' ']
          (mergeLoop cs 0 [] tail' (docs ++ [List.intercalate [' '] g]) [' ' :: v]
            (0 + ((' ' :: v).length : Int) + 0)) =
        List.intercalate [' '] (docs ++ [List.intercalate [' '] g]) ++
          ((' ' :: v) :: tail').flatten
      rw [ih (docs ++ [List.intercalate [' '] g]) [' ' :: v] [v]
        (0 + ((' ' :: v).length : Int) + 0) htail'
        (by simp)
        (by
          intro u hu
          rw [List.mem_singleton] at hu
          subst hu
          exact ⟨hv, hvf⟩)
        (by simp)
        (by
          intro x hx
          simp at hx
          subst hx
          simp)
        (by
          right
          refine ⟨by simp, ?_⟩
          rw [intercalate_one]
          simp)
        (by simp)]
      rw [intercalate_one,
        intercalate_append_one [' '] v (docs ++ [List.intercalate [' '] g]) (by simp)]
      simp

/-- Unfolding equation for `splitTextFuel` at positive fuel. -/
theorem splitTextFuel_succ_eq (cs ov fuel : Nat) (seps : List (List Char))
    (text : List Char) :
    splitTextFuel cs ov (fuel + 1) seps text =
      goodLoop cs (mergeSplits cs ov [])
        (fun s => if (pickSeparator seps text).2.isEmpty then [s]
          else splitTextFuel cs ov fuel (pickSeparator seps text).2 s)
        (splitWithSepKeep (pickSeparator seps text).1 text) [] := rfl

/-- The round-trip law for the splitter with overlap 0: splitting a
space-join of non-empty space-free words, each at least two characters
shorter than the chunk size, and re-joining the chunks with single spaces
recovers the text. -/
theorem splitTextL_words (cs : Nat) (ws : List (List Char))
    (hws : ∀ w ∈ ws, w ≠ [] ∧ (∀ c ∈ w, isSpaceChar c = false) ∧ w.length + 1 < cs) :
    List.intercalate [' '] (splitTextL cs 0 (List.intercalate [' '] ws)) =
      List.intercalate [' '] ws := by
  cases ws with
  | nil => rfl
  | cons w ws' =>
    obtain ⟨hwne, hwf, hwlen⟩ := hws w (List.mem_cons_self _ _)
    have hwpos : 0 < w.length := List.length_pos.mpr hwne
    have hnl : '\n' ∉ List.intercalate [' '] (w :: ws') := by
      intro h
      rcases mem_intercalate_space h with h2 | ⟨u, hu, hc⟩
      · exact absurd h2 (by decide)
      · exact absurd ((hws u hu).2.1 '\n' hc) (by decide)
    rw [show splitTextL cs 0 (List.intercalate [' '] (w :: ws')) =
        splitTextFuel cs 0 (separatorsList.length + 1) separatorsList
          (List.intercalate [' '] (w :: ws')) from rfl]
    rw [splitTextFuel_succ_eq]
    cases ws' with
    | nil =>
      rw [intercalate_one] at hnl ⊢
      have hsp : ' ' ∉ w := fun h => absurd (hwf ' ' h) (by decide)
      rw [pickSeparator_hard_cut w hnl hsp]
      rw [show ((([] : List Char), ([] : List (List Char))).1) = ([] : List Char)
        from rfl]
      rw [splitWithSepKeep_nil_eq]
      rw [goodLoop_all_good cs (mergeSplits cs 0 []) _ (w.map fun c => [c]) []
        (by
          intro s hs
          obtain ⟨c, _, rfl⟩ := List.mem_map.mp hs
          simp only [List.length_cons, List.length_nil]
          omega)]
      rw [List.nil_append, if_pos (by simpa using hwpos)]
      rw [show mergeSplits cs 0 [] (w.map fun c => [c]) =
          mergeLoop cs 0 [] (w.map fun c => [c]) [] [] 0 from rfl]
      have hsum : ((w.map fun c => [c]).map List.length).sum = w.length := by
        rw [← List.length_flatten, flatten_map_singleton]
      rw [mergeLoop_fits cs (w.map fun c => [c]) [] [] 0 (by simp)
        (by simp only [List.map_nil, List.sum_nil, hsum]; omega)]
      rw [List.nil_append, List.nil_append]
      rw [joinDocs_inv [w] (w.map fun c => [c]) (by simp)
        (by
          intro u hu
          rw [List.mem_singleton] at hu
          subst hu
          exact ⟨hwne, hwf⟩)
        (Or.inl (by rw [flatten_map_singleton, intercalate_one]))]
      rw [show (some (List.intercalate [' '] [w])).toList =
        [List.intercalate [' '] [w]] from rfl]
      rw [intercalate_one, intercalate_one]
    | cons v t =>
      have hsp : ' ' ∈ List.intercalate [' '] (w :: v :: t) := by
        rw [intercalate_cons₂]
        simp
      rw [pickSeparator_space _ hnl hsp]
      rw [show ((([' '] : List Char), ([[]] : List (List Char))).1) = ([' '] : List Char)
        from rfl]
      rw [splitWithSepKeep_space w (v :: t)
        (fun u hu => ⟨(hws u hu).1, (hws u hu).2.1⟩)]
      rw [goodLoop_all_good cs (mergeSplits cs 0 []) _
        (w :: (v :: t).map (fun u => ' ' :: u)) []
        (by
          intro s hs
          rcases List.mem_cons.mp hs with rfl | hs2
          · omega
          · obtain ⟨u, hu, rfl⟩ := List.mem_map.mp hs2
            have h3 := (hws u (List.mem_cons_of_mem w hu)).2.2
            simp only [List.length_cons]
            omega)]
      rw [List.nil_append, if_pos (by simp)]
      rw [show mergeSplits cs 0 [] (w :: (v :: t).map (fun u => ' ' :: u)) =
          mergeLoop cs 0 [] (w :: (v :: t).map (fun u => ' ' :: u)) [] [] 0 from rfl]
      rw [mergeLoop_cons_eq, if_neg (by rintro ⟨_, h2⟩; simp at h2)]
      show List.intercalate [' ']
          (mergeLoop cs 0 [] ((v :: t).map (fun u => ' ' :: u)) [] [w]
            (0 + (w.length : Int) + 0)) =
        List.intercalate [' '] (w :: v :: t)
      rw [mergeLoop_run cs ((v :: t).map (fun u => ' ' :: u)) [] [w] [w]
        (0 + (w.length : Int) + 0)
        (by
          intro s hs
          obtain ⟨u, hu, rfl⟩ := List.mem_map.mp hs
          refine ⟨u, rfl, (hws u (List.mem_cons_of_mem w hu)).1,
            (hws u (List.mem_cons_of_mem w hu)).2.1, ?_⟩
          have h3 := (hws u (List.mem_cons_of_mem w hu)).2.2
          simp only [List.length_cons]
          omega)
        (by simp)
        (by
          intro u hu
          rw [List.mem_singleton] at hu
          subst hu
          exact ⟨hwne, hwf⟩)
        (by simp)
        (by
          intro x hx
          rw [List.mem_singleton] at hx
          subst hx
          exact hwne)
        (Or.inl (by
          rw [intercalate_one]
          simp))
        (by simp)]
      rw [List.nil_append, intercalate_one, intercalate_one,
        intercalate_space_eq_head_flatten (v :: t) w]

/-- C8 counterexample: on the already-normalized text "abc de fg"
(`clean_text` fixes it) with chunk size 5 and overlap 2 < 5, the chunker
produces the chunks "abc", "de", "fg", and re-joining them by the claimed
fixed overlap (each chunk after the first beginning 2 characters before the
end of the previous chunk) yields "abc", not the original text: the merge
loop's pop step drops the whole previous chunk when the overlap bound is
exceeded, so consecutive chunks need not overlap at all. -/
theorem C8_counterexample :
    TextProcessor.clean_text "abc de fg" = "abc de fg" ∧
    (2 : Nat) < 5 ∧
    (TextProcessor.create_chunks 5 2 "abc de fg").map (fun m => m.content) =
      ["abc", "de", "fg"] ∧
    overlapJoin 2 ((TextProcessor.create_chunks 5 2 "abc de fg").map
      (fun m => m.content)) ≠ "abc de fg" := by
  decide

/-- C8 (amended): the fixed-overlap rejoin law fails (see the
counterexample), but a round-trip law does hold with overlap 0 on
space-normalized text: for every chunk size and every text that is a
space-join of non-empty space-free words, each at least two characters
shorter than the chunk size, re-joining the chunk contents of
`create_chunks` with single spaces recovers the text exactly (every word
lands in exactly one chunk, in order). -/
theorem C8_amended (cs : Nat) (ws : List (List Char))
    (hws : ∀ w ∈ ws, w ≠ [] ∧ (∀ c ∈ w, isSpaceChar c = false) ∧ w.length + 1 < cs) :
    List.intercalate [' ']
        ((TextProcessor.create_chunks cs 0
            (String.mk (List.intercalate [' '] ws))).map (fun m => m.content.data)) =
      List.intercalate [' '] ws := by
  cases ws with
  | nil => rfl
  | cons w ws' =>
    have hne : List.intercalate [' '] (w :: ws') ≠ [] :=
      intercalate_words_ne_nil (w :: ws') (by simp) (fun v hv => (hws v hv).1)
    rw [show TextProcessor.create_chunks cs 0
        (String.mk (List.intercalate [' '] (w :: ws'))) =
        (if String.mk (List.intercalate [' '] (w :: ws')) = "" then []
         else (splitTextL cs 0 (List.intercalate [' '] (w :: ws'))).enum.map
           (fun p =>
             { content := String.mk p.2
               chunk_id := p.1
               word_count := (pySplitWs p.2).length
               char_count := p.2.length })) from rfl]
    rw [if_neg (by
      intro h
      exact hne (by injection (show String.mk (List.intercalate [' '] (w :: ws')) =
        String.mk [] from h)))]
    rw [List.map_map]
    rw [show ((fun m : ChunkMeta => m.content.data) ∘ fun p : Nat × List Char =>
        ({ content := String.mk p.2
           chunk_id := p.1
           word_count := (pySplitWs p.2).length
           char_count := p.2.length } : ChunkMeta)) = Prod.snd from rfl]
    rw [List.enum_map_snd]
    exact splitTextL_words cs (w :: ws') hws

/-- Witness for the amended C8 at chunk size 5 and the two-word text
"ab c". -/
theorem C8_amended_witness :
    (∀ w ∈ [['a', 'b'], ['c']], w ≠ [] ∧ (∀ c ∈ w, isSpaceChar c = false) ∧
      w.length + 1 < 5) ∧
    List.intercalate [' ']
        ((TextProcessor.create_chunks 5 0
            (String.mk (List.intercalate [' '] [['a', 'b'], ['c']]))).map
          (fun m => m.content.data)) =
      List.intercalate [' '] [['a', 'b'], ['c']] :=
  ⟨by decide, C8_amended 5 [['a', 'b'], ['c']] (by decide)⟩

end DocProc
